import Mathlib

/-!
# Verification of the scalable-feed-system core

Shallow embedding of the activity/notification service
(`activity/analytics.py`, `activity/cursors.py`, `activity/sse.py`,
`activity/views.py`) together with proofs of the specification's
testable properties.

Conventions:
* Python `dict` / `collections.Counter` objects are embedded as
  association lists that preserve insertion order, exactly as CPython
  dicts do.
* Python floats used as timestamps are embedded as rationals (`ℚ`);
  the algorithms only use floor division and comparison on them.
* Python integer floor division `//` and `%` are `Int.ediv` / `Int.emod`
  (they agree with Python's semantics for positive divisors).
-/

/-! ## Counters (`collections.Counter` as an insertion-ordered assoc list) -/

/-- A CPython `Counter[str]` (insertion-ordered mapping from keys to ints). -/
abbrev Cnt := List (String × Int)

namespace Cnt

/-- `c[k]` with the `Counter` default of `0` for a missing key. -/
def get (c : Cnt) (k : String) : Int :=
  match c.find? (fun p => p.1 = k) with
  | some p => p.2
  | none => 0

/-- `c[k] += n` on a CPython dict: update in place if present, else append. -/
def incr (c : Cnt) (k : String) (n : Int) : Cnt :=
  match c with
  | [] => [(k, n)]
  | (k', v) :: rest => if k' = k then (k', v + n) :: rest else (k', v) :: incr rest k n

/-- `Counter.subtract(d)`: for each entry of `d`, decrement (inserting
missing keys with a negative count, as CPython does). -/
def csub (c : Cnt) (d : Cnt) : Cnt :=
  d.foldl (fun acc p => acc.incr p.1 (-p.2)) c

/-- The cleanup loop in `_expire_old`: delete every entry whose count
is `≤ 0`, preserving the order of the remaining entries. -/
def purge (c : Cnt) : Cnt :=
  c.filter (fun p => 0 < p.2)

/-- Keys of the counter. -/
def keys (c : Cnt) : List String := c.map Prod.fst

end Cnt

/-! ## `SlidingWindowTop` (`activity/analytics.py`) -/

/-- One ring slot (`_Bucket`): an optional bucket id plus a counts map. -/
structure Bucket where
  bucketId : Option Int
  counts : Cnt
deriving Repr, DecidableEq

/-- The state of a `SlidingWindowTop` instance. -/
structure SW where
  windowSeconds : Int
  bucketSize : Int
  numBuckets : Nat
  buckets : List Bucket
  total : Cnt
deriving Repr, DecidableEq

namespace SW

/-- `SlidingWindowTop.__init__` (for the valid case `W > 0`, `B > 0`;
invalid arguments raise `ValueError` in the source and are excluded by
hypotheses). `num_buckets = max(1, (W + B - 1) // B)`. -/
def create (W B : Int) : SW :=
  let M : Nat := (max 1 ((W + B - 1).ediv B)).toNat
  { windowSeconds := W
    bucketSize := B
    numBuckets := M
    buckets := List.replicate M ⟨none, []⟩
    total := [] }

/-- `_current_bucket_id`: `int(ts // bucket_size_seconds)`. -/
def currentBucketId (sw : SW) (ts : ℚ) : Int :=
  ⌊ts / (sw.bucketSize : ℚ)⌋

/-- The loop body of `_expire_old` over the ring, threading the totals. -/
def expireBuckets (minValid : Int) : List Bucket → Cnt → List Bucket × Cnt
  | [], total => ([], total)
  | b :: rest, total =>
    match b.bucketId with
    | none =>
      let (bs, t) := expireBuckets minValid rest total
      (b :: bs, t)
    | some i =>
      if i < minValid then
        let total' := if b.counts ≠ [] then total.csub b.counts else total
        let (bs, t) := expireBuckets minValid rest total'
        (⟨none, []⟩ :: bs, t)
      else
        let (bs, t) := expireBuckets minValid rest total
        (b :: bs, t)

/-- `_expire_old(now_ts)`: drop buckets older than the window, then
purge non-positive totals entries (the `len > 0` guard of the source). -/
def expireOld (sw : SW) (now : ℚ) : SW :=
  let current := sw.currentBucketId now
  let minValid := current - ((sw.numBuckets : Int) - 1)
  let (bs, t) := expireBuckets minValid sw.buckets sw.total
  let t' := if t.length > 0 then t.purge else t
  { sw with buckets := bs, total := t' }

/-- `add(key, ts=ts, n=n)` (with an explicit timestamp).  The ring index
`idx` is always in range (`0 ≤ bucket_id mod M < M = len(buckets)`), so
Python's `self._buckets[idx]` is embedded as `getD idx` with an
irrelevant default. -/
def add (sw : SW) (key : String) (ts : ℚ) (n : Int) : SW :=
  if key = "" ∨ n ≤ 0 then sw
  else
    let bucketId := sw.currentBucketId ts
    let idx := (bucketId.emod (sw.numBuckets : Int)).toNat
    let sw1 := sw.expireOld ts
    let bucket := sw1.buckets.getD idx ⟨none, []⟩
    let bucket1 :=
      if bucket.bucketId ≠ some bucketId then
        ({ bucketId := some bucketId, counts := [] } : Bucket)
      else bucket
    let total1 :=
      if bucket.bucketId ≠ some bucketId then
        (if bucket.counts ≠ [] then sw1.total.csub bucket.counts else sw1.total)
      else sw1.total
    { sw1 with
      buckets := sw1.buckets.set idx { bucket1 with counts := bucket1.counts.incr key n }
      total := total1.incr key n }

/-- Stable insertion (descending by count) used to model
`Counter.most_common`: an element is placed before the first entry whose
count is `≤` its own, so earlier entries win ties. -/
def insertDesc (x : String × Int) : Cnt → Cnt
  | [] => [x]
  | y :: ys => if y.2 ≤ x.2 then x :: y :: ys else y :: insertDesc x ys

/-- Stable sort by count descending (ties keep insertion order), the
order produced by `Counter.most_common` / `heapq.nlargest`. -/
def sortDesc : Cnt → Cnt
  | [] => []
  | x :: xs => insertDesc x (sortDesc xs)

/-- `Counter.most_common(k)`. -/
def mostCommon (c : Cnt) (k : Nat) : Cnt :=
  (sortDesc c).take k

/-- `top(k=k, now_ts=now)`: expire, then report `most_common(k)`.
Returns the reported list together with the mutated state. -/
def top (sw : SW) (k : Nat) (now : ℚ) : Cnt × SW :=
  let sw1 := sw.expireOld now
  (mostCommon sw1.total k, sw1)

/-! Integer-timestamp companions of the operations above.  Python calls
the counter with `float` timestamps; the embedding uses `ℚ`.  Whenever a
timestamp is an integer (as in all the spec's scenarios) each operation
agrees with a fully computable integer version, proved below. -/

/-- `currentBucketId` when the timestamp is an integer. -/
def currentBucketIdI (sw : SW) (t : Int) : Int :=
  t.ediv sw.bucketSize

/-- `expireOld` when the timestamp is an integer. -/
def expireOldI (sw : SW) (now : Int) : SW :=
  let current := sw.currentBucketIdI now
  let minValid := current - ((sw.numBuckets : Int) - 1)
  let (bs, t) := expireBuckets minValid sw.buckets sw.total
  let t' := if t.length > 0 then t.purge else t
  { sw with buckets := bs, total := t' }

/-- `add` when the timestamp is an integer. -/
def addI (sw : SW) (key : String) (ts : Int) (n : Int) : SW :=
  if key = "" ∨ n ≤ 0 then sw
  else
    let bucketId := sw.currentBucketIdI ts
    let idx := (bucketId.emod (sw.numBuckets : Int)).toNat
    let sw1 := sw.expireOldI ts
    let bucket := sw1.buckets.getD idx ⟨none, []⟩
    let bucket1 :=
      if bucket.bucketId ≠ some bucketId then
        ({ bucketId := some bucketId, counts := [] } : Bucket)
      else bucket
    let total1 :=
      if bucket.bucketId ≠ some bucketId then
        (if bucket.counts ≠ [] then sw1.total.csub bucket.counts else sw1.total)
      else sw1.total
    { sw1 with
      buckets := sw1.buckets.set idx { bucket1 with counts := bucket1.counts.incr key n }
      total := total1.incr key n }

/-- `top` when the timestamp is an integer. -/
def topI (sw : SW) (k : Nat) (now : Int) : Cnt × SW :=
  let sw1 := sw.expireOldI now
  (mostCommon sw1.total k, sw1)

theorem currentBucketId_intCast (sw : SW) (t : Int) (hB : 0 < sw.bucketSize) :
    sw.currentBucketId (t : ℚ) = sw.currentBucketIdI t := by
  unfold currentBucketId currentBucketIdI
  have hden : (sw.bucketSize : ℚ) = ((sw.bucketSize.toNat : ℕ) : ℚ) := by
    exact_mod_cast (congrArg (Int.cast : ℤ → ℚ) (Int.toNat_of_nonneg hB.le)).symm
  rw [hden, Rat.floor_intCast_div_natCast, Int.toNat_of_nonneg hB.le]
  rfl

theorem expireOld_intCast (sw : SW) (t : Int) (hB : 0 < sw.bucketSize) :
    sw.expireOld (t : ℚ) = sw.expireOldI t := by
  unfold expireOld expireOldI
  rw [currentBucketId_intCast sw t hB]

theorem add_intCast (sw : SW) (key : String) (t : Int) (n : Int) (hB : 0 < sw.bucketSize) :
    sw.add key (t : ℚ) n = sw.addI key t n := by
  unfold add addI
  rw [currentBucketId_intCast sw t hB, expireOld_intCast sw t hB]

theorem top_intCast (sw : SW) (k : Nat) (t : Int) (hB : 0 < sw.bucketSize) :
    sw.top k (t : ℚ) = sw.topI k t := by
  unfold top topI
  rw [expireOld_intCast sw t hB]

/-! Properties of the `most_common` ordering. -/

/-- The descending-by-count order reported by `most_common`. -/
def countGE (a b : String × Int) : Prop := b.2 ≤ a.2

theorem insertDesc_perm (x : String × Int) (l : Cnt) : (insertDesc x l).Perm (x :: l) := by
  induction l with
  | nil => simp [insertDesc]
  | cons y ys ih =>
    by_cases h : y.2 ≤ x.2
    · simp [insertDesc, h]
    · simp only [insertDesc, if_neg h]
      exact ((ih.cons y).trans (List.Perm.swap x y ys))

theorem insertDesc_sorted (x : String × Int) (l : Cnt) (h : l.Sorted countGE) :
    (insertDesc x l).Sorted countGE := by
  induction l with
  | nil => simp [insertDesc, List.Sorted]
  | cons y ys ih =>
    rcases List.sorted_cons.mp h with ⟨hy, hys⟩
    by_cases hxy : y.2 ≤ x.2
    · have hrw : insertDesc x (y :: ys) = x :: y :: ys := by simp [insertDesc, hxy]
      rw [hrw]
      refine List.sorted_cons.mpr ⟨?_, h⟩
      intro b hb
      rcases List.mem_cons.mp hb with rfl | hb'
      · exact hxy
      · exact le_trans (hy b hb') hxy
    · have hrw : insertDesc x (y :: ys) = y :: insertDesc x ys := by simp [insertDesc, hxy]
      rw [hrw]
      refine List.sorted_cons.mpr ⟨?_, ih hys⟩
      intro b hb
      rcases List.mem_cons.mp ((insertDesc_perm x ys).mem_iff.mp hb) with rfl | hb'
      · exact le_of_lt (lt_of_not_le hxy)
      · exact hy b hb'

theorem sortDesc_perm (l : Cnt) : (sortDesc l).Perm l := by
  induction l with
  | nil => simp [sortDesc]
  | cons x xs ih => exact (insertDesc_perm x (sortDesc xs)).trans (ih.cons x)

theorem sortDesc_sorted (l : Cnt) : (sortDesc l).Sorted countGE := by
  induction l with
  | nil => simp [sortDesc, List.Sorted]
  | cons x xs ih => exact insertDesc_sorted x (sortDesc xs) ih

theorem insertDesc_filter (x : String × Int) (l : Cnt) (v : Int) (h : l.Sorted countGE) :
    (insertDesc x l).filter (fun p => p.2 = v)
      = if x.2 = v then x :: l.filter (fun p => p.2 = v)
        else l.filter (fun p => p.2 = v) := by
  induction l with
  | nil => by_cases hx : x.2 = v <;> simp [insertDesc, List.filter, hx]
  | cons y ys ih =>
    rcases List.sorted_cons.mp h with ⟨_, hys⟩
    by_cases hxy : y.2 ≤ x.2
    · have hrw : insertDesc x (y :: ys) = x :: y :: ys := by simp [insertDesc, hxy]
      rw [hrw]
      by_cases hx : x.2 = v <;> simp [List.filter, hx]
    · have hlt : x.2 < y.2 := lt_of_not_le hxy
      have hrw : insertDesc x (y :: ys) = y :: insertDesc x ys := by simp [insertDesc, hxy]
      rw [hrw]
      by_cases hx : x.2 = v
      · have hyv : ¬ (y.2 = v) := by omega
        simp [List.filter, hyv, ih hys, hx]
      · by_cases hy : y.2 = v <;> simp [List.filter, hy, ih hys, hx]

theorem sortDesc_filter (l : Cnt) (v : Int) :
    (sortDesc l).filter (fun p => p.2 = v) = l.filter (fun p => p.2 = v) := by
  induction l with
  | nil => rfl
  | cons x xs ih =>
    by_cases hx : x.2 = v <;>
      simp [sortDesc, insertDesc_filter x (sortDesc xs) v (sortDesc_sorted xs), hx,
        List.filter, ih]

end SW

/-- C3: `Top(k)` reports the entries of the totals map (after the expiry
pass) sorted by count descending, ties broken by first-insertion order
(formalised as: the report is the `k`-element front of a permutation of
the totals map that is sorted by count descending and preserves, for
every count value, the relative order of the entries carrying that
value); and in the spec's scenario S3, `SlidingWindow(W=60, B=5)` with
`Add("a",100); Add("a",101); Add("b",101)` answers
`Top(now=110) = [("a", 2), ("b", 1)]`. -/
theorem c3_top_sorted_desc_with_insertion_ties :
    (∀ (sw : SW) (k : Nat) (now : ℚ),
        (sw.top k now).1 = (SW.sortDesc (sw.expireOld now).total).take k
        ∧ (sw.top k now).1.Sorted SW.countGE
        ∧ (SW.sortDesc (sw.expireOld now).total).Perm (sw.expireOld now).total
        ∧ (∀ v : Int,
            (SW.sortDesc (sw.expireOld now).total).filter (fun p => p.2 = v)
              = (sw.expireOld now).total.filter (fun p => p.2 = v)))
    ∧ (((((SW.create 60 5).add "a" ((100 : Int) : ℚ) 1).add "a" ((101 : Int) : ℚ) 1).add
          "b" ((101 : Int) : ℚ) 1).top 100 ((110 : Int) : ℚ)).1 = [("a", 2), ("b", 1)] := by
  constructor
  · intro sw k now
    refine ⟨rfl, ?_, SW.sortDesc_perm _, fun v => SW.sortDesc_filter _ v⟩
    exact List.Pairwise.sublist (List.take_sublist k _) (SW.sortDesc_sorted _)
  · have h1 : (SW.create 60 5).add "a" ((100 : Int) : ℚ) 1
        = (SW.create 60 5).addI "a" 100 1 :=
      SW.add_intCast _ "a" 100 1 (by decide)
    have h2 : ((SW.create 60 5).addI "a" 100 1).add "a" ((101 : Int) : ℚ) 1
        = ((SW.create 60 5).addI "a" 100 1).addI "a" 101 1 :=
      SW.add_intCast _ "a" 101 1 (by decide)
    have h3 : (((SW.create 60 5).addI "a" 100 1).addI "a" 101 1).add "b" ((101 : Int) : ℚ) 1
        = (((SW.create 60 5).addI "a" 100 1).addI "a" 101 1).addI "b" 101 1 :=
      SW.add_intCast _ "b" 101 1 (by decide)
    have h4 : ((((SW.create 60 5).addI "a" 100 1).addI "a" 101 1).addI "b" 101 1).top
          100 ((110 : Int) : ℚ)
        = ((((SW.create 60 5).addI "a" 100 1).addI "a" 101 1).addI "b" 101 1).topI 100 110 :=
      SW.top_intCast _ 100 110 (by decide)
    rw [h1, h2, h3, h4]
    decide

/-! ## Expiry of an old contribution (C7) -/

namespace SW

theorem expireBuckets_replicate_none (m : Int) (j : Nat) (t : Cnt) :
    expireBuckets m (List.replicate j ⟨none, []⟩) t = (List.replicate j ⟨none, []⟩, t) := by
  induction j with
  | zero => rfl
  | succ n ih => simp [List.replicate, expireBuckets, ih]

theorem expireOld_create (W B : Int) (now : ℚ) :
    (SW.create W B).expireOld now = SW.create W B := by
  show ({ SW.create W B with
      buckets := (expireBuckets ((SW.create W B).currentBucketId now
          - (((SW.create W B).numBuckets : Int) - 1))
          (List.replicate (SW.create W B).numBuckets ⟨none, []⟩) []).1
      total := if (expireBuckets ((SW.create W B).currentBucketId now
          - (((SW.create W B).numBuckets : Int) - 1))
          (List.replicate (SW.create W B).numBuckets ⟨none, []⟩) []).2.length > 0
        then (expireBuckets ((SW.create W B).currentBucketId now
          - (((SW.create W B).numBuckets : Int) - 1))
          (List.replicate (SW.create W B).numBuckets ⟨none, []⟩) []).2.purge
        else (expireBuckets ((SW.create W B).currentBucketId now
          - (((SW.create W B).numBuckets : Int) - 1))
          (List.replicate (SW.create W B).numBuckets ⟨none, []⟩) []).2 } : SW)
    = SW.create W B
  rw [expireBuckets_replicate_none]
  rfl

theorem expireBuckets_set_replicate (m i : Int) (c : Cnt) (hc : c ≠ []) (hi : i < m) :
    ∀ (j idx : Nat) (t : Cnt), idx < j →
      expireBuckets m ((List.replicate j (⟨none, []⟩ : Bucket)).set idx ⟨some i, c⟩) t
        = (List.replicate j ⟨none, []⟩, t.csub c) := by
  intro j
  induction j with
  | zero => intro idx t h; omega
  | succ n ih =>
    intro idx t h
    cases idx with
    | zero => simp [List.replicate, expireBuckets, hi, hc, expireBuckets_replicate_none]
    | succ idx' =>
      simp [List.replicate, expireBuckets, ih idx' t (by omega)]

theorem numBuckets_create_cast (W B : Int) :
    ((SW.create W B).numBuckets : Int) = max 1 ((W + B - 1).ediv B) := by
  have hmax : (0:Int) ≤ max 1 ((W + B - 1).ediv B) := le_trans (by omega) (le_max_left _ _)
  exact Int.toNat_of_nonneg hmax

theorem numBuckets_create_pos (W B : Int) : 0 < (SW.create W B).numBuckets := by
  have h1 : (1:Int) ≤ max 1 ((W + B - 1).ediv B) := le_max_left _ _
  exact Int.toNat_le_toNat h1

theorem getD_replicate {α : Type} (a d : α) :
    ∀ (j idx : Nat), idx < j → (List.replicate j a).getD idx d = a := by
  intro j
  induction j with
  | zero => intro idx h; omega
  | succ n ih =>
    intro idx h
    cases idx with
    | zero => rfl
    | succ idx' => exact ih idx' (by omega)

theorem emod_toNat_lt_numBuckets (W B : Int) (z : Int) :
    (z.emod ((SW.create W B).numBuckets : Int)).toNat < (SW.create W B).numBuckets := by
  have hpos : (0:Int) < ((SW.create W B).numBuckets : Int) := by
    exact_mod_cast numBuckets_create_pos W B
  have h1 : z.emod ((SW.create W B).numBuckets : Int) < ((SW.create W B).numBuckets : Int) :=
    Int.emod_lt_of_pos z hpos
  omega

/-- Expiring a ring that holds exactly one live bucket, strictly older
than the window: its counts are subtracted from the totals and the
cleanup purge runs. -/
theorem expireOld_single_live (W B bid : Int) (c t : Cnt) (hc : c ≠ []) (M idx : Nat)
    (hidx : idx < M) (now : ℚ)
    (hbid : bid < ⌊now / ((B : Int) : ℚ)⌋ - ((M : Int) - 1)) :
    (({ windowSeconds := W, bucketSize := B, numBuckets := M,
        buckets := (List.replicate M ⟨none, []⟩).set idx ⟨some bid, c⟩,
        total := t } : SW).expireOld now).total
      = if (t.csub c).length > 0 then (t.csub c).purge else t.csub c := by
  have hcb : ({ windowSeconds := W, bucketSize := B, numBuckets := M,
                buckets := (List.replicate M ⟨none, []⟩).set idx ⟨some bid, c⟩,
                total := t } : SW).currentBucketId now = ⌊now / ((B : Int) : ℚ)⌋ := rfl
  simp only [expireOld, hcb]
  rw [expireBuckets_set_replicate _ bid c hc hbid _ _ _ hidx]

/-- The state of a fresh counter after a single `add` that actually
counts (`key ≠ ""`, `n > 0`): one live bucket plus a singleton total. -/
theorem add_fresh (W B : Int) (k : String) (x : Int) (ts : ℚ)
    (hk : k ≠ "") (hx : 0 < x) :
    (SW.create W B).add k ts x
      = { windowSeconds := W, bucketSize := B,
          numBuckets := (SW.create W B).numBuckets,
          buckets := (List.replicate (SW.create W B).numBuckets ⟨none, []⟩).set
            ((⌊ts / ((B : Int) : ℚ)⌋.emod ((SW.create W B).numBuckets : Int)).toNat)
            ⟨some ⌊ts / ((B : Int) : ℚ)⌋, [(k, x)]⟩,
          total := [(k, x)] } := by
  have hcond : ¬ (k = "" ∨ x ≤ 0) := by
    push_neg
    exact ⟨hk, hx⟩
  have hidx : (⌊ts / ((B : Int) : ℚ)⌋.emod ((SW.create W B).numBuckets : Int)).toNat
      < (SW.create W B).numBuckets := emod_toNat_lt_numBuckets W B _
  simp only [add, if_neg hcond, expireOld_create]
  rw [show (SW.create W B).currentBucketId ts = ⌊ts / ((B : Int) : ℚ)⌋ from rfl]
  rw [show (SW.create W B).buckets = List.replicate (SW.create W B).numBuckets ⟨none, []⟩ from rfl]
  rw [getD_replicate _ _ _ _ hidx]
  have hne : (⟨none, []⟩ : Bucket).bucketId ≠ some ⌊ts / ((B : Int) : ℚ)⌋ := by simp
  rw [if_pos hne, if_pos hne, if_neg (by simp : ¬ ((⟨none, []⟩ : Bucket).counts ≠ []))]
  rfl

/-- The rational-floor arithmetic behind expiry: once
`ts + W + B ≤ now`, the bucket of `ts` is strictly below
`current − (num_buckets − 1)`. -/
theorem floor_window_bound (W B : Int) (ts now : ℚ) (hW : 0 < W) (hB : 0 < B)
    (h : ts + ((W : Int) : ℚ) + ((B : Int) : ℚ) ≤ now) :
    ⌊ts / ((B : Int) : ℚ)⌋ + max 1 ((W + B - 1).ediv B) ≤ ⌊now / ((B : Int) : ℚ)⌋ := by
  have hB0 : (0:ℚ) < ((B : Int) : ℚ) := by exact_mod_cast hB
  have hM : max 1 ((W + B - 1).ediv B) ≤ W.ediv B + 1 := by
    have e1 : W + B - 1 = (W - 1) + 1 * B := by ring
    have e2 : ((W - 1) + 1 * B).ediv B = (W - 1).ediv B + 1 :=
      Int.add_mul_ediv_right (W - 1) 1 (ne_of_gt hB)
    have e3 : (W - 1).ediv B ≤ W.ediv B := Int.ediv_le_ediv hB (by omega)
    have e4 : 0 ≤ W.ediv B := Int.ediv_nonneg (by omega) (by omega)
    rw [e1, e2]
    exact max_le (by omega) (by omega)
  have hWdiv : ((W.ediv B : Int) : ℚ) ≤ ((W : Int) : ℚ) / ((B : Int) : ℚ) := by
    have hfl : (W.ediv B : Int) = ⌊((W : Int) : ℚ) / ((B : Int) : ℚ)⌋ := by
      have hden : (((B : Int)) : ℚ) = ((B.toNat : ℕ) : ℚ) := by
        exact_mod_cast (congrArg (Int.cast : ℤ → ℚ) (Int.toNat_of_nonneg hB.le)).symm
      rw [hden, Rat.floor_intCast_div_natCast, Int.toNat_of_nonneg hB.le]
      rfl
    rw [hfl]
    exact Int.floor_le _
  rw [Int.le_floor, Int.cast_add]
  have h1 : ((⌊ts / ((B : Int) : ℚ)⌋ : Int) : ℚ) ≤ ts / ((B : Int) : ℚ) := Int.floor_le _
  have hM' : ((max 1 ((W + B - 1).ediv B) : Int) : ℚ) ≤ ((W.ediv B : Int) : ℚ) + 1 := by
    exact_mod_cast hM
  have hsplit : (ts + ((W : Int) : ℚ) + ((B : Int) : ℚ)) / ((B : Int) : ℚ)
      = ts / ((B : Int) : ℚ) + ((W : Int) : ℚ) / ((B : Int) : ℚ) + 1 := by
    rw [add_div, add_div, div_self (ne_of_gt hB0)]
  calc ((⌊ts / ((B : Int) : ℚ)⌋ : Int) : ℚ) + ((max 1 ((W + B - 1).ediv B) : Int) : ℚ)
      ≤ ts / ((B : Int) : ℚ) + (((W.ediv B : Int) : ℚ) + 1) := add_le_add h1 hM'
    _ ≤ ts / ((B : Int) : ℚ) + (((W : Int) : ℚ) / ((B : Int) : ℚ) + 1) := by
        exact add_le_add_left (add_le_add_right hWdiv 1) _
    _ = (ts + ((W : Int) : ℚ) + ((B : Int) : ℚ)) / ((B : Int) : ℚ) := by rw [hsplit]; ring
    _ ≤ now / ((B : Int) : ℚ) := by gcongr

end SW

/-- C7: after `Add(k, ts=T, n=x)` on a fresh counter with window `W` and
bucket size `B`, any `Top` whose `now` is at least `T + W + B` finds the
add's bucket expired: its counts are subtracted from the totals, the key
(now at count 0) is purged, and the `Top` report is empty. -/
theorem c7_add_contribution_expires (W B : Int) (k : String) (x : Int) (K : Nat) (ts now : ℚ)
    (hW : 0 < W) (hB : 0 < B) (hk : k ≠ "") (hx : 0 < x)
    (hnow : ts + ((W : Int) : ℚ) + ((B : Int) : ℚ) ≤ now) :
    (((SW.create W B).add k ts x).expireOld now).total = []
    ∧ (((SW.create W B).add k ts x).top K now).1 = [] := by
  have hstate := SW.add_fresh W B k x ts hk hx
  have hidxlt : (⌊ts / ((B : Int) : ℚ)⌋.emod ((SW.create W B).numBuckets : Int)).toNat
      < (SW.create W B).numBuckets := SW.emod_toNat_lt_numBuckets W B _
  have hbid : ⌊ts / ((B : Int) : ℚ)⌋
      < ⌊now / ((B : Int) : ℚ)⌋ - (((SW.create W B).numBuckets : Int) - 1) := by
    have hbound := SW.floor_window_bound W B ts now hW hB hnow
    have hcast := SW.numBuckets_create_cast W B
    omega
  have hexp : (((SW.create W B).add k ts x).expireOld now).total = [] := by
    rw [hstate, SW.expireOld_single_live W B _ _ _ (by simp) _ _ hidxlt now hbid]
    simp [Cnt.csub, Cnt.incr, Cnt.purge]
  refine ⟨hexp, ?_⟩
  show SW.mostCommon (((SW.create W B).add k ts x).expireOld now).total K = []
  rw [hexp]
  simp [SW.mostCommon, SW.sortDesc]

/-- Closed witness for `c7_add_contribution_expires` at
`W=60, B=5, k="a", x=1, ts=100, now=165`. -/
theorem c7_add_contribution_expires_witness :
    (0:Int) < 60 ∧ (0:Int) < 5 ∧ ("a" : String) ≠ "" ∧ (0:Int) < 1
    ∧ ((100:ℚ) + (((60:Int)) : ℚ) + (((5:Int)) : ℚ) ≤ (100:ℚ) + (((60:Int)) : ℚ) + (((5:Int)) : ℚ))
    ∧ ((((SW.create 60 5).add "a" 100 1).expireOld
          ((100:ℚ) + (((60:Int)) : ℚ) + (((5:Int)) : ℚ))).total = []
        ∧ (((SW.create 60 5).add "a" 100 1).top 7
              ((100:ℚ) + (((60:Int)) : ℚ) + (((5:Int)) : ℚ))).1 = []) :=
  ⟨by decide, by decide, by decide, by decide, le_refl _,
    c7_add_contribution_expires 60 5 "a" 1 7 100
      ((100:ℚ) + (((60:Int)) : ℚ) + (((5:Int)) : ℚ))
      (by decide) (by decide) (by decide) (by decide) (le_refl _)⟩

/-! ## Counter lemmas for the totals/buckets invariant (C9) -/

namespace Cnt

theorem get_nil (k : String) : get [] k = 0 := rfl

theorem get_cons (p : String × Int) (c : Cnt) (k : String) :
    get (p :: c) k = if p.1 = k then p.2 else get c k := by
  by_cases h : p.1 = k <;> simp [get, List.find?, h]

theorem get_eq_zero_of_not_mem (c : Cnt) (k : String) (h : k ∉ keys c) : get c k = 0 := by
  induction c with
  | nil => rfl
  | cons p rest ih =>
    rw [get_cons]
    rw [keys, List.map_cons] at h
    simp only [List.mem_cons, not_or] at h
    rw [if_neg (fun hp => h.1 hp.symm)]
    exact ih h.2

theorem get_incr (c : Cnt) (k : String) (n : Int) (k' : String) :
    get (incr c k n) k' = get c k' + (if k' = k then n else 0) := by
  induction c with
  | nil =>
    rw [show incr [] k n = [(k, n)] from rfl, get_cons, get_nil]
    by_cases h : k = k'
    · subst h
      simp
    · rw [if_neg h, if_neg (fun hp => h hp.symm)]
      omega
  | cons p rest ih =>
    rcases p with ⟨k0, v0⟩
    by_cases h0 : k0 = k
    · subst h0
      rw [show incr ((k0, v0) :: rest) k0 n = (k0, v0 + n) :: rest from by simp [incr],
        get_cons, get_cons]
      by_cases h1 : k0 = k'
      · subst h1
        simp
      · rw [if_neg h1, if_neg h1, if_neg (fun hp => h1 hp.symm)]
        omega
    · rw [show incr ((k0, v0) :: rest) k n = (k0, v0) :: incr rest k n from by simp [incr, h0],
        get_cons, get_cons]
      by_cases h1 : k0 = k'
      · rw [if_pos h1, if_pos h1, if_neg (fun hp : k' = k => h0 (h1.trans hp))]
        omega
      · rw [if_neg h1, if_neg h1]
        exact ih

theorem keys_incr (c : Cnt) (k : String) (n : Int) :
    keys (incr c k n) = if k ∈ keys c then keys c else keys c ++ [k] := by
  induction c with
  | nil => simp [incr, keys]
  | cons p rest ih =>
    rcases p with ⟨k0, v0⟩
    by_cases h0 : k0 = k
    · subst h0
      have hm : k0 ∈ keys ((k0, v0) :: rest) := by simp [keys]
      rw [if_pos hm]
      simp [incr, keys]
    · rw [show incr ((k0, v0) :: rest) k n = (k0, v0) :: incr rest k n from by simp [incr, h0]]
      rw [show keys ((k0, v0) :: incr rest k n) = k0 :: keys (incr rest k n) from rfl]
      rw [show keys ((k0, v0) :: rest) = k0 :: keys rest from rfl, ih]
      by_cases hmem : k ∈ keys rest
      · rw [if_pos hmem, if_pos (List.mem_cons_of_mem _ hmem)]
      · have hnotin : k ∉ k0 :: keys rest := by
          intro hin
          rcases List.mem_cons.mp hin with h | h
          · exact h0 h.symm
          · exact hmem h
        rw [if_neg hmem, if_neg hnotin]
        rfl

theorem keys_nodup_incr (c : Cnt) (k : String) (n : Int) (h : (keys c).Nodup) :
    (keys (incr c k n)).Nodup := by
  rw [keys_incr]
  by_cases hmem : k ∈ keys c
  · simpa [hmem] using h
  · simp only [hmem, if_false]
    simpa [List.nodup_append] using ⟨h, hmem⟩

theorem pos_incr (c : Cnt) (k : String) (n : Int) (hc : ∀ p ∈ c, 0 < p.2) (hn : 0 < n) :
    ∀ p ∈ incr c k n, 0 < p.2 := by
  induction c with
  | nil =>
    intro p hp
    rw [show incr [] k n = [(k, n)] from rfl] at hp
    rw [List.mem_singleton.mp hp]
    exact hn
  | cons q rest ih =>
    rcases q with ⟨k0, v0⟩
    intro p hp
    by_cases h0 : k0 = k
    · subst h0
      rw [show incr ((k0, v0) :: rest) k0 n = (k0, v0 + n) :: rest from by simp [incr]] at hp
      rcases List.mem_cons.mp hp with rfl | hp'
      · have hv : 0 < v0 := hc (k0, v0) (List.mem_cons_self _ _)
        show 0 < v0 + n
        omega
      · exact hc p (List.mem_cons_of_mem _ hp')
    · rw [show incr ((k0, v0) :: rest) k n = (k0, v0) :: incr rest k n
          from by simp [incr, h0]] at hp
      rcases List.mem_cons.mp hp with rfl | hp'
      · exact hc (k0, v0) (List.mem_cons_self _ _)
      · exact ih (fun q hq => hc q (List.mem_cons_of_mem _ hq)) p hp'

theorem get_csub (c d : Cnt) (k : String) (hd : (keys d).Nodup) :
    get (csub c d) k = get c k - get d k := by
  induction d generalizing c with
  | nil => simp [csub, get_nil]
  | cons p rest ih =>
    rcases p with ⟨k0, v0⟩
    rw [keys, List.map_cons] at hd
    rcases List.nodup_cons.mp hd with ⟨hk0, hrest⟩
    have hstep : csub c ((k0, v0) :: rest) = csub (incr c k0 (-v0)) rest := rfl
    rw [hstep, ih _ hrest, get_incr, get_cons]
    by_cases h : k = k0
    · subst h
      rw [if_pos rfl, if_pos rfl]
      have hz : get rest k = 0 := get_eq_zero_of_not_mem rest k hk0
      omega
    · rw [if_neg h, if_neg (fun hp => h hp.symm)]
      omega

theorem keys_nodup_csub (c d : Cnt) (h : (keys c).Nodup) : (keys (csub c d)).Nodup := by
  induction d generalizing c with
  | nil => exact h
  | cons p rest ih => exact ih _ (keys_nodup_incr c p.1 (-p.2) h)

theorem get_purge (c : Cnt) (k : String) (h : (keys c).Nodup) :
    get (purge c) k = if 0 < get c k then get c k else 0 := by
  induction c with
  | nil => simp [purge, get_nil]
  | cons p rest ih =>
    rcases p with ⟨k0, v0⟩
    rw [keys, List.map_cons] at h
    rcases List.nodup_cons.mp h with ⟨hk0, hrest⟩
    have hrec := ih hrest
    by_cases hv : 0 < v0
    · rw [show purge ((k0, v0) :: rest) = (k0, v0) :: purge rest
          from by simp [purge, List.filter, hv]]
      simp only [get_cons]
      by_cases hk : k0 = k
      · simp [hk, hv]
      · simp [hk, hrec]
    · rw [show purge ((k0, v0) :: rest) = purge rest
          from by simp [purge, List.filter, hv]]
      simp only [get_cons]
      by_cases hk : k0 = k
      · subst hk
        have hz : get rest k0 = 0 := get_eq_zero_of_not_mem rest k0 hk0
        simp [hrec, hz, hv]
      · simp [hk, hrec]

theorem pos_purge (c : Cnt) : ∀ p ∈ purge c, 0 < p.2 := by
  intro p hp
  have hf := List.of_mem_filter hp
  simpa using hf

theorem keys_nodup_purge (c : Cnt) (h : (keys c).Nodup) : (keys (purge c)).Nodup := by
  unfold purge keys
  exact h.sublist (List.Sublist.map Prod.fst (List.filter_sublist c))

theorem get_nonneg (c : Cnt) (k : String) (hc : ∀ p ∈ c, 0 < p.2) : 0 ≤ get c k := by
  unfold get
  cases hfind : c.find? (fun p => p.1 = k) with
  | none => exact le_refl 0
  | some p => exact (hc p (List.mem_of_find?_eq_some hfind)).le

end Cnt

/-! ## The totals/buckets invariant (C9) -/

namespace SW

/-- The contribution of one ring slot to the aggregate: live buckets
(those with a `bucket_id`) contribute their counts map. -/
def liveGet (b : Bucket) (k : String) : Int :=
  match b.bucketId with
  | none => 0
  | some _ => Cnt.get b.counts k

/-- Key-wise sum of the counts maps of all live buckets. -/
def liveSum (bs : List Bucket) (k : String) : Int :=
  (bs.map (fun b => liveGet b k)).sum

/-- A client-visible operation on a `SlidingWindowTop`. -/
inductive Op where
  | addOp (key : String) (ts : ℚ) (n : Int)
  | topOp (k : Nat) (now : ℚ)

/-- Execute one operation (for `top`, keep the mutated state). -/
def applyOp (sw : SW) : Op → SW
  | .addOp key ts n => sw.add key ts n
  | .topOp k now => (sw.top k now).2

/-- Execute a sequence of operations. -/
def run (sw : SW) (ops : List Op) : SW := ops.foldl applyOp sw

/-- Well-formedness of one ring slot: duplicate-free keys, strictly
positive per-bucket counts, and cleared slots are empty. -/
def BWF (b : Bucket) : Prop :=
  (Cnt.keys b.counts).Nodup ∧ (∀ p ∈ b.counts, 0 < p.2) ∧ (b.bucketId = none → b.counts = [])

/-- The counter's internal invariant: ring length, duplicate-free maps,
and the totals map agreeing key-wise with the live buckets. -/
structure WF (sw : SW) : Prop where
  lenEq : sw.buckets.length = sw.numBuckets
  posM : 0 < sw.numBuckets
  totalNodup : (Cnt.keys sw.total).Nodup
  bwf : ∀ b ∈ sw.buckets, BWF b
  agrees : ∀ k, Cnt.get sw.total k = liveSum sw.buckets k

theorem liveGet_eq_get (b : Bucket) (k : String) (h : BWF b) :
    liveGet b k = Cnt.get b.counts k := by
  rcases h with ⟨-, -, hnone⟩
  unfold liveGet
  cases hb : b.bucketId with
  | none => rw [hnone hb, Cnt.get_nil]
  | some i => rfl

theorem liveSum_nil (k : String) : liveSum [] k = 0 := rfl

theorem liveSum_cons (b : Bucket) (bs : List Bucket) (k : String) :
    liveSum (b :: bs) k = liveGet b k + liveSum bs k := by
  unfold liveSum
  rw [List.map_cons, List.sum_cons]

theorem liveSum_nonneg (bs : List Bucket) (k : String)
    (h : ∀ b ∈ bs, BWF b) : 0 ≤ liveSum bs k := by
  induction bs with
  | nil => exact le_refl 0
  | cons b rest ih =>
    rw [liveSum_cons]
    have hb : 0 ≤ liveGet b k := by
      unfold liveGet
      cases hid : b.bucketId with
      | none => exact le_refl 0
      | some i => exact Cnt.get_nonneg _ _ (h b (List.mem_cons_self _ _)).2.1
    have hr := ih (fun b' hb' => h b' (List.mem_cons_of_mem _ hb'))
    omega

theorem getD_eq_get {α : Type} (l : List α) (d : α) :
    ∀ idx, (h : idx < l.length) → l.getD idx d = l.get ⟨idx, h⟩ := by
  induction l with
  | nil => intro idx h; simp at h
  | cons a rest ih =>
    intro idx h
    cases idx with
    | zero => rfl
    | succ j => exact ih j (by simpa using h)

theorem liveSum_set (bs : List Bucket) (b : Bucket) (k : String) :
    ∀ idx, (h : idx < bs.length) →
      liveSum (bs.set idx b) k = liveSum bs k - liveGet (bs.get ⟨idx, h⟩) k + liveGet b k := by
  induction bs with
  | nil => intro idx h; simp at h
  | cons a rest ih =>
    intro idx h
    cases idx with
    | zero =>
      rw [List.set_cons_zero, liveSum_cons, liveSum_cons]
      have : (a :: rest).get ⟨0, h⟩ = a := rfl
      rw [this]
      ring
    | succ j =>
      have hj : j < rest.length := by simpa using h
      rw [List.set_cons_succ, liveSum_cons, liveSum_cons, ih j hj]
      have : (a :: rest).get ⟨j + 1, h⟩ = rest.get ⟨j, hj⟩ := rfl
      rw [this]
      ring

theorem expireBuckets_cons_none (m : Int) (b : Bucket) (rest : List Bucket) (t : Cnt)
    (hb : b.bucketId = none) :
    expireBuckets m (b :: rest) t
      = (b :: (expireBuckets m rest t).1, (expireBuckets m rest t).2) := by
  simp [expireBuckets, hb]

theorem expireBuckets_cons_keep (m : Int) (b : Bucket) (rest : List Bucket) (t : Cnt)
    (i : Int) (hb : b.bucketId = some i) (hi : ¬ i < m) :
    expireBuckets m (b :: rest) t
      = (b :: (expireBuckets m rest t).1, (expireBuckets m rest t).2) := by
  simp [expireBuckets, hb, hi]

theorem expireBuckets_cons_expired (m : Int) (b : Bucket) (rest : List Bucket) (t : Cnt)
    (i : Int) (hb : b.bucketId = some i) (hi : i < m) :
    expireBuckets m (b :: rest) t
      = ((⟨none, []⟩ : Bucket) :: (expireBuckets m rest
            (if b.counts ≠ [] then Cnt.csub t b.counts else t)).1,
        (expireBuckets m rest (if b.counts ≠ [] then Cnt.csub t b.counts else t)).2) := by
  simp [expireBuckets, hb, hi]

theorem expireBuckets_cons_none_fst (m : Int) (b : Bucket) (rest : List Bucket) (t : Cnt)
    (hb : b.bucketId = none) :
    (expireBuckets m (b :: rest) t).1 = b :: (expireBuckets m rest t).1 := by
  rw [expireBuckets_cons_none m b rest t hb]

theorem expireBuckets_cons_none_snd (m : Int) (b : Bucket) (rest : List Bucket) (t : Cnt)
    (hb : b.bucketId = none) :
    (expireBuckets m (b :: rest) t).2 = (expireBuckets m rest t).2 := by
  rw [expireBuckets_cons_none m b rest t hb]

theorem expireBuckets_cons_keep_fst (m : Int) (b : Bucket) (rest : List Bucket) (t : Cnt)
    (i : Int) (hb : b.bucketId = some i) (hi : ¬ i < m) :
    (expireBuckets m (b :: rest) t).1 = b :: (expireBuckets m rest t).1 := by
  rw [expireBuckets_cons_keep m b rest t i hb hi]

theorem expireBuckets_cons_keep_snd (m : Int) (b : Bucket) (rest : List Bucket) (t : Cnt)
    (i : Int) (hb : b.bucketId = some i) (hi : ¬ i < m) :
    (expireBuckets m (b :: rest) t).2 = (expireBuckets m rest t).2 := by
  rw [expireBuckets_cons_keep m b rest t i hb hi]

theorem expireBuckets_cons_expired_fst (m : Int) (b : Bucket) (rest : List Bucket) (t : Cnt)
    (i : Int) (hb : b.bucketId = some i) (hi : i < m) :
    (expireBuckets m (b :: rest) t).1
      = (⟨none, []⟩ : Bucket) :: (expireBuckets m rest
          (if b.counts ≠ [] then Cnt.csub t b.counts else t)).1 := by
  rw [expireBuckets_cons_expired m b rest t i hb hi]

theorem expireBuckets_cons_expired_snd (m : Int) (b : Bucket) (rest : List Bucket) (t : Cnt)
    (i : Int) (hb : b.bucketId = some i) (hi : i < m) :
    (expireBuckets m (b :: rest) t).2
      = (expireBuckets m rest (if b.counts ≠ [] then Cnt.csub t b.counts else t)).2 := by
  rw [expireBuckets_cons_expired m b rest t i hb hi]

/-- One pass of the expiry loop: length is preserved, slot and totals
well-formedness are preserved, and the difference `totals − liveSum`
is preserved key-wise. -/
theorem expireBuckets_spec (m : Int) :
    ∀ (bs : List Bucket) (t : Cnt), (∀ b ∈ bs, BWF b) → (Cnt.keys t).Nodup →
      ((expireBuckets m bs t).1.length = bs.length)
      ∧ (∀ b ∈ (expireBuckets m bs t).1, BWF b)
      ∧ (Cnt.keys (expireBuckets m bs t).2).Nodup
      ∧ (∀ k, Cnt.get (expireBuckets m bs t).2 k - liveSum (expireBuckets m bs t).1 k
            = Cnt.get t k - liveSum bs k) := by
  intro bs
  induction bs with
  | nil =>
    intro t hb ht
    exact ⟨rfl, by simp [expireBuckets], ht, fun k => rfl⟩
  | cons b rest ih =>
    intro t hbwf ht
    have hbw : BWF b := hbwf b (List.mem_cons_self _ _)
    have hrest : ∀ b' ∈ rest, BWF b' := fun b' h => hbwf b' (List.mem_cons_of_mem _ h)
    cases hid : b.bucketId with
    | none =>
      rw [expireBuckets_cons_none_fst m b rest t hid, expireBuckets_cons_none_snd m b rest t hid]
      rcases ih t hrest ht with ⟨hlen, hbs, htn, hbal⟩
      refine ⟨by simpa using hlen, ?_, htn, ?_⟩
      · intro b' hb'
        rcases List.mem_cons.mp hb' with rfl | hb''
        · exact hbw
        · exact hbs b' hb''
      · intro k
        rw [liveSum_cons, liveSum_cons]
        have hb := hbal k
        omega
    | some i =>
      by_cases hi : i < m
      · rw [expireBuckets_cons_expired_fst m b rest t i hid hi,
          expireBuckets_cons_expired_snd m b rest t i hid hi]
        have ht' : (Cnt.keys (if b.counts ≠ [] then Cnt.csub t b.counts else t)).Nodup := by
          by_cases hc : b.counts ≠ []
          · rw [if_pos hc]
            exact Cnt.keys_nodup_csub t b.counts ht
          · rw [if_neg hc]
            exact ht
        rcases ih _ hrest ht' with ⟨hlen, hbs, htn, hbal⟩
        refine ⟨by simpa using hlen, ?_, htn, ?_⟩
        · intro b' hb'
          rcases List.mem_cons.mp hb' with rfl | hb''
          · exact ⟨List.nodup_nil, by simp, fun _ => rfl⟩
          · exact hbs b' hb''
        · intro k
          have hbal' := hbal k
          have hget : Cnt.get (if b.counts ≠ [] then Cnt.csub t b.counts else t) k
              = Cnt.get t k - Cnt.get b.counts k := by
            by_cases hc : b.counts ≠ []
            · rw [if_pos hc]
              exact Cnt.get_csub t b.counts k hbw.1
            · rw [if_neg hc]
              push_neg at hc
              rw [hc, Cnt.get_nil]
              omega
          rw [liveSum_cons, liveSum_cons]
          have hlg : liveGet b k = Cnt.get b.counts k := liveGet_eq_get b k hbw
          have hlg0 : liveGet (⟨none, []⟩ : Bucket) k = 0 := rfl
          rw [hlg0]
          omega
      · rw [expireBuckets_cons_keep_fst m b rest t i hid hi,
          expireBuckets_cons_keep_snd m b rest t i hid hi]
        rcases ih t hrest ht with ⟨hlen, hbs, htn, hbal⟩
        refine ⟨by simpa using hlen, ?_, htn, ?_⟩
        · intro b' hb'
          rcases List.mem_cons.mp hb' with rfl | hb''
          · exact hbw
          · exact hbs b' hb''
        · intro k
          rw [liveSum_cons, liveSum_cons]
          have hb := hbal k
          omega

end SW

namespace SW

theorem expireOld_buckets (sw : SW) (now : ℚ) :
    (sw.expireOld now).buckets
      = (expireBuckets (sw.currentBucketId now - ((sw.numBuckets : Int) - 1))
          sw.buckets sw.total).1 := rfl

theorem expireOld_total (sw : SW) (now : ℚ) :
    (sw.expireOld now).total
      = (if (expireBuckets (sw.currentBucketId now - ((sw.numBuckets : Int) - 1))
              sw.buckets sw.total).2.length > 0
         then Cnt.purge (expireBuckets (sw.currentBucketId now - ((sw.numBuckets : Int) - 1))
              sw.buckets sw.total).2
         else (expireBuckets (sw.currentBucketId now - ((sw.numBuckets : Int) - 1))
              sw.buckets sw.total).2) := rfl

theorem expireOld_numBuckets (sw : SW) (now : ℚ) :
    (sw.expireOld now).numBuckets = sw.numBuckets := rfl

/-- Expiry preserves the counter's invariant. -/
theorem expireOld_wf (sw : SW) (now : ℚ) (h : WF sw) : WF (sw.expireOld now) := by
  rcases expireBuckets_spec (sw.currentBucketId now - ((sw.numBuckets : Int) - 1))
      sw.buckets sw.total h.bwf h.totalNodup with ⟨hlen, hbs, htn, hbal⟩
  refine ⟨?_, ?_, ?_, ?_, ?_⟩
  · rw [expireOld_buckets, expireOld_numBuckets, hlen]
    exact h.lenEq
  · rw [expireOld_numBuckets]
    exact h.posM
  · rw [expireOld_total]
    by_cases hl : (expireBuckets (sw.currentBucketId now - ((sw.numBuckets : Int) - 1))
        sw.buckets sw.total).2.length > 0
    · rw [if_pos hl]
      exact Cnt.keys_nodup_purge _ htn
    · rw [if_neg hl]
      exact htn
  · rw [expireOld_buckets]
    exact hbs
  · intro k
    rw [expireOld_total, expireOld_buckets]
    have hbal' := hbal k
    have hag := h.agrees k
    have hnn : 0 ≤ liveSum (expireBuckets (sw.currentBucketId now - ((sw.numBuckets : Int) - 1))
        sw.buckets sw.total).1 k := liveSum_nonneg _ _ hbs
    by_cases hl : (expireBuckets (sw.currentBucketId now - ((sw.numBuckets : Int) - 1))
        sw.buckets sw.total).2.length > 0
    · rw [if_pos hl, Cnt.get_purge _ _ htn]
      by_cases hpos : 0 < Cnt.get (expireBuckets (sw.currentBucketId now
          - ((sw.numBuckets : Int) - 1)) sw.buckets sw.total).2 k
      · rw [if_pos hpos]
        omega
      · rw [if_neg hpos]
        omega
    · rw [if_neg hl]
      omega

/-- After an expiry pass, every entry remaining in the totals map is
strictly positive (the purge loop removed the rest). -/
theorem expireOld_total_pos (sw : SW) (now : ℚ) :
    ∀ p ∈ (sw.expireOld now).total, 0 < p.2 := by
  rw [expireOld_total]
  by_cases hl : (expireBuckets (sw.currentBucketId now - ((sw.numBuckets : Int) - 1))
      sw.buckets sw.total).2.length > 0
  · rw [if_pos hl]
    exact Cnt.pos_purge _
  · rw [if_neg hl]
    intro p hp
    have hnil : (expireBuckets (sw.currentBucketId now - ((sw.numBuckets : Int) - 1))
        sw.buckets sw.total).2 = [] := List.eq_nil_of_length_eq_zero (by omega)
    rw [hnil] at hp
    simp at hp

/-- `add` preserves the counter's invariant. -/
theorem add_wf (sw : SW) (key : String) (ts : ℚ) (n : Int) (h : WF sw) :
    WF (sw.add key ts n) := by
  by_cases hcond : key = "" ∨ n ≤ 0
  · rw [show sw.add key ts n = sw from by simp [add, hcond]]
    exact h
  · have hn : 0 < n := by
      push_neg at hcond
      omega
    have h1 : WF (sw.expireOld ts) := expireOld_wf sw ts h
    simp only [add, if_neg hcond]
    set nb := sw.expireOld ts with hnb
    set bid := sw.currentBucketId ts with hbid
    set idx := (bid.emod (sw.numBuckets : Int)).toNat with hidxdef
    have hlt : idx < nb.buckets.length := by
      rw [h1.lenEq, show nb.numBuckets = sw.numBuckets from rfl]
      have hpos : (0:Int) < (sw.numBuckets : Int) := by exact_mod_cast h.posM
      have he1 : bid.emod (sw.numBuckets : Int) < (sw.numBuckets : Int) :=
        Int.emod_lt_of_pos _ hpos
      omega
    set bucket := nb.buckets.getD idx ⟨none, []⟩ with hbk
    have hbget : nb.buckets.get ⟨idx, hlt⟩ = bucket := by
      rw [hbk, getD_eq_get nb.buckets _ idx hlt]
    have hbmem : bucket ∈ nb.buckets := by
      rw [← hbget]
      exact List.get_mem _ _ _
    have hbwf : BWF bucket := h1.bwf bucket hbmem
    by_cases hr : bucket.bucketId ≠ some bid
    · rw [if_pos hr, if_pos hr]
      refine ⟨?_, ?_, ?_, ?_, ?_⟩
      · show (nb.buckets.set idx _).length = nb.numBuckets
        rw [List.length_set]
        exact h1.lenEq
      · exact h1.posM
      · show (Cnt.keys (Cnt.incr _ key n)).Nodup
        apply Cnt.keys_nodup_incr
        by_cases hc : bucket.counts ≠ []
        · rw [if_pos hc]
          exact Cnt.keys_nodup_csub _ _ h1.totalNodup
        · rw [if_neg hc]
          exact h1.totalNodup
      · intro b' hb'
        rcases List.mem_or_eq_of_mem_set hb' with hmem | rfl
        · exact h1.bwf b' hmem
        · refine ⟨?_, ?_, ?_⟩
          · show (Cnt.keys (Cnt.incr [] key n)).Nodup
            exact Cnt.keys_nodup_incr [] key n List.nodup_nil
          · show ∀ p ∈ Cnt.incr [] key n, 0 < p.2
            exact Cnt.pos_incr [] key n (by simp) hn
          · intro habs
            exact absurd habs (by simp)
      · intro k
        show Cnt.get (Cnt.incr (if bucket.counts ≠ []
            then Cnt.csub nb.total bucket.counts else nb.total) key n) k
          = liveSum (nb.buckets.set idx
              { bucketId := some bid, counts := Cnt.incr [] key n }) k
        rw [Cnt.get_incr, liveSum_set nb.buckets _ k idx hlt, hbget]
        have hT1 : Cnt.get (if bucket.counts ≠ []
            then Cnt.csub nb.total bucket.counts else nb.total) k
            = Cnt.get nb.total k - Cnt.get bucket.counts k := by
          by_cases hc : bucket.counts ≠ []
          · rw [if_pos hc]
            exact Cnt.get_csub _ _ _ hbwf.1
          · rw [if_neg hc]
            push_neg at hc
            rw [hc, Cnt.get_nil]
            omega
        have hlgb : liveGet bucket k = Cnt.get bucket.counts k := liveGet_eq_get bucket k hbwf
        have hlgn : liveGet { bucketId := some bid, counts := Cnt.incr [] key n } k
            = Cnt.get (Cnt.incr [] key n) k := rfl
        have hlgn2 : Cnt.get (Cnt.incr [] key n) k = 0 + (if k = key then n else 0) := by
          rw [Cnt.get_incr, Cnt.get_nil]
        have hag := h1.agrees k
        rw [hT1, hlgb, hlgn, hlgn2, hag]
        omega
    · rw [if_neg hr, if_neg hr]
      push_neg at hr
      refine ⟨?_, ?_, ?_, ?_, ?_⟩
      · show (nb.buckets.set idx _).length = nb.numBuckets
        rw [List.length_set]
        exact h1.lenEq
      · exact h1.posM
      · show (Cnt.keys (Cnt.incr nb.total key n)).Nodup
        exact Cnt.keys_nodup_incr _ key n h1.totalNodup
      · intro b' hb'
        rcases List.mem_or_eq_of_mem_set hb' with hmem | rfl
        · exact h1.bwf b' hmem
        · refine ⟨?_, ?_, ?_⟩
          · show (Cnt.keys (Cnt.incr bucket.counts key n)).Nodup
            exact Cnt.keys_nodup_incr _ key n hbwf.1
          · show ∀ p ∈ Cnt.incr bucket.counts key n, 0 < p.2
            exact Cnt.pos_incr _ key n hbwf.2.1 hn
          · intro habs
            rw [show ({ bucket with counts := Cnt.incr bucket.counts key n } : Bucket).bucketId
                = bucket.bucketId from rfl, hr] at habs
            exact absurd habs (by simp)
      · intro k
        show Cnt.get (Cnt.incr nb.total key n) k
          = liveSum (nb.buckets.set idx
              { bucket with counts := Cnt.incr bucket.counts key n }) k
        rw [Cnt.get_incr, liveSum_set nb.buckets _ k idx hlt, hbget]
        have hlgb : liveGet bucket k = Cnt.get bucket.counts k := liveGet_eq_get bucket k hbwf
        have hlgn : liveGet { bucket with counts := Cnt.incr bucket.counts key n } k
            = Cnt.get (Cnt.incr bucket.counts key n) k := by
          unfold liveGet
          rw [show ({ bucket with counts := Cnt.incr bucket.counts key n } : Bucket).bucketId
              = bucket.bucketId from rfl, hr]
        have hlgn2 : Cnt.get (Cnt.incr bucket.counts key n) k
            = Cnt.get bucket.counts k + (if k = key then n else 0) := Cnt.get_incr _ _ _ _
        have hag := h1.agrees k
        rw [hlgb, hlgn, hlgn2, hag]
        omega

/-- Every operation preserves the invariant. -/
theorem applyOp_wf (sw : SW) (op : Op) (h : WF sw) : WF (applyOp sw op) := by
  cases op with
  | addOp key ts n => exact add_wf sw key ts n h
  | topOp k now =>
    show WF (sw.top k now).2
    rw [show (sw.top k now).2 = sw.expireOld now from rfl]
    exact expireOld_wf sw now h

/-- A fresh counter satisfies the invariant. -/
theorem create_wf (W B : Int) : WF (SW.create W B) := by
  refine ⟨by simp [SW.create], numBuckets_create_pos W B, by simp [SW.create, Cnt.keys], ?_, ?_⟩
  · intro b hb
    rw [show (SW.create W B).buckets
        = List.replicate (SW.create W B).numBuckets ⟨none, []⟩ from rfl] at hb
    rw [List.eq_of_mem_replicate hb]
    exact ⟨List.nodup_nil, by simp, fun _ => rfl⟩
  · intro k
    rw [show (SW.create W B).total = [] from rfl, Cnt.get_nil]
    rw [show (SW.create W B).buckets
        = List.replicate (SW.create W B).numBuckets ⟨none, []⟩ from rfl]
    induction (SW.create W B).numBuckets with
    | zero => rfl
    | succ j ih =>
      rw [List.replicate_succ, liveSum_cons, ← ih]
      rfl

/-- Any run of operations from a fresh counter preserves the invariant. -/
theorem run_wf (sw : SW) (ops : List Op) (h : WF sw) : WF (run sw ops) := by
  induction ops generalizing sw with
  | nil => exact h
  | cons op rest ih => exact ih (applyOp sw op) (applyOp_wf sw op h)

end SW

/-- C9: after any sequence of `add`/`top` operations on a fresh counter,
the totals map agrees key-wise with the sum of the counts maps of the
live buckets, and every entry remaining in a totals map after an expiry
pass is strictly positive. -/
theorem c9_totals_agree_with_live_buckets (W B : Int) (ops : List SW.Op)
    (hW : 0 < W) (hB : 0 < B) :
    (∀ k, Cnt.get (SW.run (SW.create W B) ops).total k
        = SW.liveSum (SW.run (SW.create W B) ops).buckets k)
    ∧ (∀ (sw : SW) (now : ℚ), ∀ p ∈ (sw.expireOld now).total, 0 < p.2) :=
  ⟨(SW.run_wf (SW.create W B) ops (SW.create_wf W B)).agrees,
    fun sw now => SW.expireOld_total_pos sw now⟩

/-- Closed witness for `c9_totals_agree_with_live_buckets` at `W=60`,
`B=5` and a two-operation run. -/
theorem c9_totals_agree_with_live_buckets_witness :
    (0:Int) < 60 ∧ (0:Int) < 5
    ∧ ((∀ k, Cnt.get (SW.run (SW.create 60 5)
            [SW.Op.addOp "a" 100 1, SW.Op.topOp 5 110]).total k
          = SW.liveSum (SW.run (SW.create 60 5)
              [SW.Op.addOp "a" 100 1, SW.Op.topOp 5 110]).buckets k)
        ∧ (∀ (sw : SW) (now : ℚ), ∀ p ∈ (sw.expireOld now).total, 0 < p.2)) :=
  ⟨by decide, by decide,
    c9_totals_agree_with_live_buckets 60 5 [SW.Op.addOp "a" 100 1, SW.Op.topOp 5 110]
      (by decide) (by decide)⟩

/-! ## The notification broker (`activity/sse.py`) -/

/-- Per-subscriber bounded queue contents (front = oldest, as in
`asyncio.Queue`), abstract over the message type. -/
abbrev BQueue (α : Type) := List α

namespace Broker

/-- `asyncio.Queue.full()`: `maxsize > 0` and `qsize ≥ maxsize`
(`maxsize = 0` means unbounded). -/
def qFull {α : Type} (cap : Nat) (q : BQueue α) : Bool :=
  0 < cap ∧ cap ≤ q.length

/-- The per-queue body of `NotificationBroker.publish`: if the queue is
full, pop the oldest (`get_nowait`); then try to push (`put_nowait`),
silently dropping the message if the queue is still full. -/
def publishToQueue {α : Type} (cap : Nat) (q : BQueue α) (msg : α) : BQueue α :=
  let q1 := if qFull cap q then q.drop 1 else q
  if qFull cap q1 then q1 else q1 ++ [msg]

/-- Publish a sequence of messages to one subscriber queue, without the
consumer draining. -/
def publishMany {α : Type} (cap : Nat) (q : BQueue α) (msgs : List α) : BQueue α :=
  msgs.foldl (publishToQueue cap) q

theorem publishToQueue_not_full {α : Type} (cap : Nat) (q : BQueue α) (msg : α)
    (hcap : 0 < cap) (hlt : q.length < cap) :
    publishToQueue cap q msg = q ++ [msg] := by
  have h1 : qFull cap q = false := by
    simp only [qFull, decide_eq_false_iff_not, not_and]
    intro _
    omega
  simp [publishToQueue, h1]

theorem publishToQueue_full {α : Type} (cap : Nat) (q : BQueue α) (msg : α)
    (hcap : 0 < cap) (heq : q.length = cap) :
    publishToQueue cap q msg = q.drop 1 ++ [msg] := by
  have h1 : qFull cap q = true := by
    simp only [qFull, decide_eq_true_eq]
    omega
  have h2 : qFull cap q.tail = false := by
    simp only [qFull, decide_eq_false_iff_not, not_and]
    intro _
    simp only [List.length_tail]
    omega
  simp [publishToQueue, h1, h2]

/-- Core drop-oldest law: starting from any queue within capacity, the
queue after `m` publishes holds exactly the most recent `cap` of the
`q ++ msgs` stream. -/
theorem publishMany_eq {α : Type} (cap : Nat) (hcap : 0 < cap) :
    ∀ (msgs : List α) (q : BQueue α), q.length ≤ cap →
      publishMany cap q msgs = (q ++ msgs).drop (q.length + msgs.length - cap) := by
  intro msgs
  induction msgs with
  | nil =>
    intro q hq
    have h0 : q.length + ([] : List α).length - cap = 0 := by
      simp only [List.length_nil, Nat.add_zero]
      omega
    rw [h0, List.drop_zero, List.append_nil]
    rfl
  | cons m rest ih =>
    intro q hq
    rw [show publishMany cap q (m :: rest) = publishMany cap (publishToQueue cap q m) rest
        from rfl]
    by_cases hfull : q.length = cap
    · rw [publishToQueue_full cap q m hcap hfull]
      have hlen : (q.drop 1 ++ [m]).length ≤ cap := by
        simp
        omega
      rw [ih _ hlen]
      have hqne : q ≠ [] := by
        intro h
        rw [h] at hfull
        simp at hfull
        omega
      have hd1 : (q ++ (m :: rest)).drop 1 = q.drop 1 ++ (m :: rest) := by
        rw [List.drop_append_of_le_length]
        omega
      have hlhs : (q.drop 1 ++ [m]) ++ rest = q.drop 1 ++ (m :: rest) := by
        simp
      rw [hlhs]
      have hcount : q.length + (m :: rest).length - cap = 1 + rest.length := by
        simp
        omega
      have hcount2 : (q.drop 1 ++ [m]).length + rest.length - cap = rest.length := by
        simp
        omega
      rw [hcount, hcount2, ← List.drop_drop, hd1]
    · have hlt : q.length < cap := by omega
      rw [publishToQueue_not_full cap q m hcap hlt]
      have hlen : (q ++ [m]).length ≤ cap := by
        simp
        omega
      rw [ih _ hlen]
      have hassoc : (q ++ [m]) ++ rest = q ++ (m :: rest) := by simp
      have hcount : (q ++ [m]).length + rest.length = q.length + (m :: rest).length := by
        simp
        omega
      rw [hassoc, hcount]

end Broker

/-- C4: publishing `m` messages to a subscriber queue of capacity `c ≥ 1`
without draining leaves exactly `min(m, c)` messages — the `c` most
recent (oldest popped first when full) — the queue never exceeds its
capacity (so a publish never has to block), and in the spec's scenario
S6 a cap-4 queue receiving 10 messages ends with exactly the last 4. -/
theorem c4_queue_drop_oldest (cap : Nat) (msgs : List Nat) (hcap : 0 < cap) :
    Broker.publishMany cap [] msgs = msgs.drop (msgs.length - cap)
    ∧ (Broker.publishMany cap [] msgs).length = min msgs.length cap
    ∧ (∀ (q : BQueue Nat) (msg : Nat), q.length ≤ cap →
        (Broker.publishToQueue cap q msg).length ≤ cap)
    ∧ Broker.publishMany 4 [] [1, 2, 3, 4, 5, 6, 7, 8, 9, 10] = [7, 8, 9, 10] := by
  have hmain := Broker.publishMany_eq cap hcap msgs [] (by simp)
  simp only [List.nil_append, List.length_nil, Nat.zero_add] at hmain
  refine ⟨hmain, ?_, ?_, by decide⟩
  · rw [hmain, List.length_drop]
    omega
  · intro q msg hq
    by_cases hfull : q.length = cap
    · rw [Broker.publishToQueue_full cap q msg hcap hfull]
      simp
      omega
    · rw [Broker.publishToQueue_not_full cap q msg hcap (by omega)]
      simp
      omega

/-- Closed witness for `c4_queue_drop_oldest` at `cap = 4` and ten
messages. -/
theorem c4_queue_drop_oldest_witness :
    0 < 4
    ∧ (Broker.publishMany 4 [] [1, 2, 3, 4, 5, 6, 7, 8, 9, 10]
        = [1, 2, 3, 4, 5, 6, 7, 8, 9, 10].drop ([1, 2, 3, 4, 5, 6, 7, 8, 9, 10].length - 4)) :=
  ⟨by decide, (c4_queue_drop_oldest 4 [1, 2, 3, 4, 5, 6, 7, 8, 9, 10] (by decide)).1⟩

/-! ## Broker registry membership (C10) -/

/-- The broker's registry `user_id → set of queues`; queues are
identified by tokens, the per-user set is insertion-ordered. -/
abbrev Registry := List (Int × List Nat)

namespace Broker

/-- `self._subs.get(uid)` (plain `dict.get`: no defaultdict insertion). -/
def lookupR (r : Registry) (uid : Int) : Option (List Nat) :=
  (r.find? (fun p => p.1 = uid)).map Prod.snd

/-- `subscribe`: `self._subs[user_id].add(q)` on a `defaultdict(set)` —
materialise the user's entry if absent, then add the queue (a set add:
no duplicate entries). -/
def subscribeR (r : Registry) (uid : Int) (qid : Nat) : Registry :=
  match r with
  | [] => [(uid, [qid])]
  | (u, qs) :: rest =>
    if u = uid then (u, if qid ∈ qs then qs else qs ++ [qid]) :: rest
    else (u, qs) :: subscribeR rest uid qid

/-- `unsubscribe`: look the user up; if absent or empty, return;
`discard` the queue; if the remaining set is empty, pop the user. -/
def unsubscribeR (r : Registry) (uid : Int) (qid : Nat) : Registry :=
  match r with
  | [] => []
  | (u, qs) :: rest =>
    if u = uid then
      (if qs = [] then (u, qs) :: rest
       else if qs.erase qid = [] then rest
       else (u, qs.erase qid) :: rest)
    else (u, qs) :: unsubscribeR rest uid qid

/-- `any_subscribers(user_ids)`: `any(bool(self._subs.get(uid)) …)`. -/
def anySubscribersR (r : Registry) (uids : List Int) : Bool :=
  uids.any (fun uid =>
    match lookupR r uid with
    | none => false
    | some qs => !qs.isEmpty)

/-- A subscribe / unsubscribe event on the broker registry. -/
inductive BOp where
  | sub (uid : Int) (qid : Nat)
  | unsub (uid : Int) (qid : Nat)

/-- Apply one registry event. -/
def applyB (r : Registry) : BOp → Registry
  | .sub uid qid => subscribeR r uid qid
  | .unsub uid qid => unsubscribeR r uid qid

/-- Replay a trace of subscribe/unsubscribe events from an empty
registry. -/
def runB (ops : List BOp) : Registry := ops.foldl applyB []

/-- The invariant: the registry never maps a user to an empty queue set. -/
def NonEmptyVals (r : Registry) : Prop := ∀ p ∈ r, p.2 ≠ []

theorem subscribeR_nonEmpty (r : Registry) (uid : Int) (qid : Nat)
    (h : NonEmptyVals r) : NonEmptyVals (subscribeR r uid qid) := by
  induction r with
  | nil =>
    intro p hp
    rw [show subscribeR [] uid qid = [(uid, [qid])] from rfl] at hp
    rw [List.mem_singleton.mp hp]
    simp
  | cons e rest ih =>
    rcases e with ⟨u, qs⟩
    by_cases hu : u = uid
    · rw [show subscribeR ((u, qs) :: rest) uid qid
          = (u, if qid ∈ qs then qs else qs ++ [qid]) :: rest from by simp [subscribeR, hu]]
      intro p hp
      rcases List.mem_cons.mp hp with rfl | hp'
      · by_cases hq : qid ∈ qs
        · simp only [hq, if_true]
          exact h (u, qs) (List.mem_cons_self _ _)
        · simp only [hq, if_false]
          simp
      · exact h p (List.mem_cons_of_mem _ hp')
    · rw [show subscribeR ((u, qs) :: rest) uid qid = (u, qs) :: subscribeR rest uid qid
          from by simp [subscribeR, hu]]
      intro p hp
      rcases List.mem_cons.mp hp with rfl | hp'
      · exact h (u, qs) (List.mem_cons_self _ _)
      · exact ih (fun p' h' => h p' (List.mem_cons_of_mem _ h')) p hp'

theorem unsubscribeR_nonEmpty (r : Registry) (uid : Int) (qid : Nat)
    (h : NonEmptyVals r) : NonEmptyVals (unsubscribeR r uid qid) := by
  induction r with
  | nil =>
    intro p hp
    simp [unsubscribeR] at hp
  | cons e rest ih =>
    rcases e with ⟨u, qs⟩
    have hrest : NonEmptyVals rest := fun p' h' => h p' (List.mem_cons_of_mem _ h')
    by_cases hu : u = uid
    · by_cases hq0 : qs = []
      · rw [show unsubscribeR ((u, qs) :: rest) uid qid = (u, qs) :: rest
            from by simp [unsubscribeR, hu, hq0]]
        exact h
      · by_cases hq1 : qs.erase qid = []
        · rw [show unsubscribeR ((u, qs) :: rest) uid qid = rest
              from by simp [unsubscribeR, hu, hq0, hq1]]
          exact hrest
        · rw [show unsubscribeR ((u, qs) :: rest) uid qid = (u, qs.erase qid) :: rest
              from by simp [unsubscribeR, hu, hq0, hq1]]
          intro p hp
          rcases List.mem_cons.mp hp with rfl | hp'
          · exact hq1
          · exact hrest p hp'
    · rw [show unsubscribeR ((u, qs) :: rest) uid qid = (u, qs) :: unsubscribeR rest uid qid
          from by simp [unsubscribeR, hu]]
      intro p hp
      rcases List.mem_cons.mp hp with rfl | hp'
      · exact h (u, qs) (List.mem_cons_self _ _)
      · exact ih hrest p hp'

theorem runB_nonEmpty (ops : List BOp) : NonEmptyVals (runB ops) := by
  have hgen : ∀ (ops' : List BOp) (r : Registry), NonEmptyVals r →
      NonEmptyVals (ops'.foldl applyB r) := by
    intro ops'
    induction ops' with
    | nil => exact fun r h => h
    | cons op rest ih =>
      intro r h
      cases op with
      | sub uid qid => exact ih _ (subscribeR_nonEmpty r uid qid h)
      | unsub uid qid => exact ih _ (unsubscribeR_nonEmpty r uid qid h)
  exact hgen ops [] (by intro p hp; simp at hp)

theorem lookupR_nonEmpty (r : Registry) (uid : Int) (h : NonEmptyVals r) :
    ∀ qs, lookupR r uid = some qs → qs ≠ [] := by
  intro qs hqs
  unfold lookupR at hqs
  cases hfind : r.find? (fun p => p.1 = uid) with
  | none => rw [hfind] at hqs; simp at hqs
  | some p =>
    rw [hfind] at hqs
    simp at hqs
    rw [← hqs]
    exact h p (List.mem_of_find?_eq_some hfind)

end Broker

/-- C10: after any trace of subscribe/unsubscribe events the registry
never maps a user to an empty queue set, and `any_subscribers(uids)`
answers true exactly when some listed user has a registry entry (a live
subscriber). -/
theorem c10_registry_no_empty_sets (ops : List Broker.BOp) (uids : List Int) :
    (∀ p ∈ Broker.runB ops, p.2 ≠ [])
    ∧ (Broker.anySubscribersR (Broker.runB ops) uids = true
        ↔ ∃ u ∈ uids, (Broker.lookupR (Broker.runB ops) u).isSome) := by
  have hinv := Broker.runB_nonEmpty ops
  refine ⟨hinv, ?_⟩
  rw [Broker.anySubscribersR, List.any_eq_true]
  constructor
  · rintro ⟨u, hu, hpred⟩
    refine ⟨u, hu, ?_⟩
    cases hl : Broker.lookupR (Broker.runB ops) u with
    | none => rw [hl] at hpred; simp at hpred
    | some qs => simp [hl]
  · rintro ⟨u, hu, hsome⟩
    refine ⟨u, hu, ?_⟩
    cases hl : Broker.lookupR (Broker.runB ops) u with
    | none => rw [hl] at hsome; simp at hsome
    | some qs =>
      have hne := Broker.lookupR_nonEmpty (Broker.runB ops) u hinv qs hl
      simpa using hne

/-! ## Cursor codec (`activity/cursors.py`) -/

/-- One decimal digit character. -/
def digitChar (d : Nat) : Char := Char.ofNat (48 + d % 10)

/-- Is `c` an ASCII decimal digit? -/
def isDigitC (c : Char) : Bool := 48 ≤ c.toNat ∧ c.toNat ≤ 57

/-- Fixed-width zero-padded decimal (Python `"%04d" % n` etc.),
most-significant digit first. -/
def digitsFixed : Nat → Nat → List Char
  | 0, _ => []
  | w + 1, n => digitChar (n / 10 ^ w) :: digitsFixed w (n % 10 ^ w)

/-- Variable-length decimal of `n` (Python `str(n)` for `n : int ≥ 0`),
driven by a structural fuel argument. -/
def natDigitsAux : Nat → Nat → List Char
  | 0, _ => []
  | fuel + 1, n => if n < 10 then [digitChar n] else natDigitsAux fuel (n / 10) ++ [digitChar (n % 10)]

/-- `str(n)` for a natural number. -/
def natDigits (n : Nat) : List Char := natDigitsAux (n + 1) n

/-- Read a digit string (most significant first) onto an accumulator. -/
def readVar (s : List Char) (acc : Nat) : Nat :=
  match s with
  | [] => acc
  | c :: rest => readVar rest (acc * 10 + (c.toNat - 48))

/-- Read exactly `w` digit characters, returning the value and the rest. -/
def readFixed : Nat → Nat → List Char → Option (Nat × List Char)
  | 0, acc, s => some (acc, s)
  | w + 1, acc, c :: s => if isDigitC c then readFixed w (acc * 10 + (c.toNat - 48)) s else none
  | _ + 1, _, [] => none

theorem digitChar_toNat (d : Nat) : (digitChar d).toNat = 48 + d % 10 := by
  have h : ∀ m, m < 10 → (Char.ofNat (48 + m)).toNat = 48 + m := by decide
  unfold digitChar
  exact h (d % 10) (Nat.mod_lt _ (by omega))

theorem isDigitC_digitChar (d : Nat) : isDigitC (digitChar d) = true := by
  have h : d % 10 < 10 := Nat.mod_lt _ (by omega)
  simp [isDigitC, digitChar_toNat]
  omega

theorem digitsFixed_length (w : Nat) : ∀ n, (digitsFixed w n).length = w := by
  induction w with
  | zero => intro n; rfl
  | succ v ih => intro n; simp [digitsFixed, ih]

theorem digitsFixed_digits (w : Nat) : ∀ n, ∀ c ∈ digitsFixed w n, isDigitC c = true := by
  induction w with
  | zero => intro n c hc; simp [digitsFixed] at hc
  | succ v ih =>
    intro n c hc
    rcases List.mem_cons.mp hc with rfl | hc'
    · exact isDigitC_digitChar _
    · exact ih _ c hc'

theorem readFixed_digitsFixed (w : Nat) :
    ∀ n acc rest, n < 10 ^ w →
      readFixed w acc (digitsFixed w n ++ rest) = some (acc * 10 ^ w + n, rest) := by
  induction w with
  | zero =>
    intro n acc rest hn
    have h0 : n = 0 := by omega
    simp [digitsFixed, readFixed, h0]
  | succ v ih =>
    intro n acc rest hn
    rw [show digitsFixed (v + 1) n = digitChar (n / 10 ^ v) :: digitsFixed v (n % 10 ^ v)
        from rfl]
    rw [List.cons_append]
    rw [show readFixed (v + 1) acc (digitChar (n / 10 ^ v) :: (digitsFixed v (n % 10 ^ v) ++ rest))
        = if isDigitC (digitChar (n / 10 ^ v))
          then readFixed v (acc * 10 + ((digitChar (n / 10 ^ v)).toNat - 48))
            (digitsFixed v (n % 10 ^ v) ++ rest)
          else none from rfl]
    rw [if_pos (isDigitC_digitChar _)]
    have hmod : n % 10 ^ v < 10 ^ v := Nat.mod_lt _ (by positivity)
    rw [ih (n % 10 ^ v) _ rest hmod, digitChar_toNat]
    have hdivlt : n / 10 ^ v < 10 := by
      rw [Nat.div_lt_iff_lt_mul (by positivity)]
      calc n < 10 ^ (v + 1) := hn
        _ = 10 * 10 ^ v := by ring
        _ ≤ 10 * 10 ^ v := le_refl _
    have hq : (n / 10 ^ v) % 10 = n / 10 ^ v := Nat.mod_eq_of_lt hdivlt
    have harith : (acc * 10 + (48 + (n / 10 ^ v) % 10 - 48)) * 10 ^ v + n % 10 ^ v
        = acc * 10 ^ (v + 1) + n := by
      rw [hq]
      have h48 : 48 + n / 10 ^ v - 48 = n / 10 ^ v := by omega
      rw [h48]
      have hsplit : 10 ^ v * (n / 10 ^ v) + n % 10 ^ v = n := Nat.div_add_mod n (10 ^ v)
      calc (acc * 10 + n / 10 ^ v) * 10 ^ v + n % 10 ^ v
          = acc * (10 ^ v * 10) + (10 ^ v * (n / 10 ^ v) + n % 10 ^ v) := by ring
        _ = acc * (10 ^ v * 10) + n := by rw [hsplit]
        _ = acc * 10 ^ (v + 1) + n := by ring
    rw [harith]

theorem natDigitsAux_length_pos (fuel n : Nat) (hf : 0 < fuel) :
    0 < (natDigitsAux fuel n).length := by
  cases fuel with
  | zero => omega
  | succ f =>
    by_cases h : n < 10
    · simp [natDigitsAux, h]
    · simp [natDigitsAux, h]

theorem natDigits_digits : ∀ fuel n, ∀ c ∈ natDigitsAux fuel n, isDigitC c = true := by
  intro fuel
  induction fuel with
  | zero => intro n c hc; simp [natDigitsAux] at hc
  | succ f ih =>
    intro n c hc
    by_cases h : n < 10
    · simp only [natDigitsAux, if_pos h] at hc
      rw [List.mem_singleton.mp hc]
      exact isDigitC_digitChar _
    · simp only [natDigitsAux, if_neg h] at hc
      rcases List.mem_append.mp hc with hc' | hc'
      · exact ih _ c hc'
      · rw [List.mem_singleton.mp hc']
        exact isDigitC_digitChar _

theorem readVar_append (a b : List Char) (acc : Nat) :
    readVar (a ++ b) acc = readVar b (readVar a acc) := by
  induction a generalizing acc with
  | nil => rfl
  | cons c rest ih => simp [readVar, ih]

theorem readVar_natDigitsAux : ∀ fuel n acc, n < fuel →
    readVar (natDigitsAux fuel n) acc
      = acc * 10 ^ (natDigitsAux fuel n).length + n := by
  intro fuel
  induction fuel with
  | zero => intro n acc h; omega
  | succ f ih =>
    intro n acc h
    by_cases hlt : n < 10
    · simp only [natDigitsAux, if_pos hlt]
      simp [readVar, digitChar_toNat]
      omega
    · simp only [natDigitsAux, if_neg hlt]
      rw [readVar_append]
      have hrec : n / 10 < f := by omega
      rw [ih (n / 10) acc hrec]
      rw [show readVar [digitChar (n % 10)]
            (acc * 10 ^ (natDigitsAux f (n / 10)).length + n / 10)
          = (acc * 10 ^ (natDigitsAux f (n / 10)).length + n / 10) * 10
              + ((digitChar (n % 10)).toNat - 48) from rfl]
      rw [digitChar_toNat, List.length_append]
      have h48 : 48 + n % 10 % 10 - 48 = n % 10 := by omega
      rw [h48]
      have hsplit : 10 * (n / 10) + n % 10 = n := Nat.div_add_mod n 10
      rw [show List.length [digitChar (n % 10)] = 1 from rfl]
      calc (acc * 10 ^ (natDigitsAux f (n / 10)).length + n / 10) * 10 + n % 10
          = acc * (10 ^ (natDigitsAux f (n / 10)).length * 10) + (10 * (n / 10) + n % 10) := by
            ring
        _ = acc * (10 ^ (natDigitsAux f (n / 10)).length * 10) + n := by rw [hsplit]
        _ = acc * 10 ^ ((natDigitsAux f (n / 10)).length + 1) + n := by ring

theorem readVar_natDigits (n : Nat) : readVar (natDigits n) 0 = n := by
  rw [natDigits, readVar_natDigitsAux (n + 1) n 0 (by omega)]
  omega

/-- The URL-safe base64 alphabet (`base64.urlsafe_b64encode`). -/
def b64Alphabet : List Char :=
  "ABCDEFGHIJKLMNOPQRSTUVWXYZabcdefghijklmnopqrstuvwxyz0123456789-_".data

/-- The alphabet character of a 6-bit value. -/
def b64c (n : Nat) : Char := b64Alphabet.getD n '?'

/-- The 6-bit value of an alphabet character. -/
def b64v (c : Char) : Option Nat :=
  if c ∈ b64Alphabet then some (b64Alphabet.indexOf c) else none

/-- `base64.urlsafe_b64encode` over bytes, producing padded output. -/
def b64encode : List Nat → List Char
  | b0 :: b1 :: b2 :: rest =>
    b64c (b0 / 4) :: b64c (b0 % 4 * 16 + b1 / 16) :: b64c (b1 % 16 * 4 + b2 / 64)
      :: b64c (b2 % 64) :: b64encode rest
  | [b0, b1] => [b64c (b0 / 4), b64c (b0 % 4 * 16 + b1 / 16), b64c (b1 % 16 * 4), '=']
  | [b0] => [b64c (b0 / 4), b64c (b0 % 4 * 16), '=', '=']
  | [] => []

/-- `base64.urlsafe_b64decode` over a correctly padded string (the
domain produced by re-padding stripped encoder output; anything else
raises in Python and is `none` here). -/
def b64decode : List Char → Option (List Nat)
  | [] => some []
  | c0 :: c1 :: c2 :: c3 :: rest =>
    match b64v c0, b64v c1 with
    | some v0, some v1 =>
      if c2 = '=' then
        if c3 = '=' ∧ rest = [] then some [v0 * 4 + v1 / 16] else none
      else
        match b64v c2 with
        | some v2 =>
          if c3 = '=' then
            if rest = [] then some [v0 * 4 + v1 / 16, v1 % 16 * 16 + v2 / 4] else none
          else
            match b64v c3 with
            | some v3 =>
              match b64decode rest with
              | some bs => some ((v0 * 4 + v1 / 16) :: (v1 % 16 * 16 + v2 / 4)
                  :: (v2 % 4 * 64 + v3) :: bs)
              | none => none
            | none => none
        | none => none
    | _, _ => none
  | _ => none

/-- Python `s.rstrip("=")`. -/
def rstripEq (l : List Char) : List Char :=
  (l.reverse.dropWhile (fun c => c = '=')).reverse

theorem b64v_b64c : ∀ n, n < 64 → b64v (b64c n) = some n := by decide

theorem b64c_ne_pad : ∀ n, n < 64 → b64c n ≠ '=' := by decide

theorem b64c_mem : ∀ n, n < 64 → b64c n ∈ b64Alphabet := by decide

theorem b64Alphabet_ne_pad : ∀ c ∈ b64Alphabet, c ≠ '=' := by decide

theorem b64decode_b64encode :
    ∀ (N : Nat) (bs : List Nat), bs.length ≤ N → (∀ b ∈ bs, b < 256) →
      b64decode (b64encode bs) = some bs := by
  intro N
  induction N with
  | zero =>
    intro bs hlen hb
    have hnil : bs = [] := List.eq_nil_of_length_eq_zero (by omega)
    rw [hnil]
    rfl
  | succ m ih =>
    intro bs hlen hb
    match bs with
    | [] => rfl
    | [b0] =>
      have h0 : b0 < 256 := hb b0 (by simp)
      have hv0 := b64v_b64c (b0 / 4) (by omega)
      have hv1 := b64v_b64c (b0 % 4 * 16) (by omega)
      show b64decode [b64c (b0 / 4), b64c (b0 % 4 * 16), '=', '='] = some [b0]
      simp [b64decode, hv0, hv1]
      omega
    | [b0, b1] =>
      have h0 : b0 < 256 := hb b0 (by simp)
      have h1 : b1 < 256 := hb b1 (by simp)
      have hv0 := b64v_b64c (b0 / 4) (by omega)
      have hv1 := b64v_b64c (b0 % 4 * 16 + b1 / 16) (by omega)
      have hv2 := b64v_b64c (b1 % 16 * 4) (by omega)
      have hne2 := b64c_ne_pad (b1 % 16 * 4) (by omega)
      show b64decode [b64c (b0 / 4), b64c (b0 % 4 * 16 + b1 / 16), b64c (b1 % 16 * 4), '=']
          = some [b0, b1]
      simp [b64decode, hv0, hv1, hv2, hne2]
      constructor
      · omega
      · omega
    | b0 :: b1 :: b2 :: rest =>
      have h0 : b0 < 256 := hb b0 (by simp)
      have h1 : b1 < 256 := hb b1 (by simp)
      have h2 : b2 < 256 := hb b2 (by simp)
      have hv0 := b64v_b64c (b0 / 4) (by omega)
      have hv1 := b64v_b64c (b0 % 4 * 16 + b1 / 16) (by omega)
      have hv2 := b64v_b64c (b1 % 16 * 4 + b2 / 64) (by omega)
      have hv3 := b64v_b64c (b2 % 64) (by omega)
      have hne2 := b64c_ne_pad (b1 % 16 * 4 + b2 / 64) (by omega)
      have hne3 := b64c_ne_pad (b2 % 64) (by omega)
      have hrest := ih rest (by simp at hlen; omega)
        (fun b hbm => hb b (by simp [hbm]))
      show b64decode (b64c (b0 / 4) :: b64c (b0 % 4 * 16 + b1 / 16)
          :: b64c (b1 % 16 * 4 + b2 / 64) :: b64c (b2 % 64) :: b64encode rest)
          = some (b0 :: b1 :: b2 :: rest)
      simp [b64decode, hv0, hv1, hv2, hv3, hne2, hne3, hrest]
      refine ⟨by omega, by omega, by omega⟩

/-- Shape of encoder output: alphabet body plus `0`, `1` or `2` final
padding characters, with total length a multiple of 4. -/
theorem b64encode_shape :
    ∀ (N : Nat) (bs : List Nat), bs.length ≤ N → (∀ b ∈ bs, b < 256) →
      ∃ body : List Char, (∀ c ∈ body, c ∈ b64Alphabet)
        ∧ b64encode bs = body ++ List.replicate ((3 - bs.length % 3) % 3) '='
        ∧ (body.length + (3 - bs.length % 3) % 3) % 4 = 0 := by
  intro N
  induction N with
  | zero =>
    intro bs hlen hb
    have hnil : bs = [] := List.eq_nil_of_length_eq_zero (by omega)
    rw [hnil]
    exact ⟨[], by simp, rfl, by simp⟩
  | succ m ih =>
    intro bs hlen hb
    match bs with
    | [] => exact ⟨[], by simp, rfl, by simp⟩
    | [b0] =>
      have h0 : b0 < 256 := hb b0 (by simp)
      refine ⟨[b64c (b0 / 4), b64c (b0 % 4 * 16)], ?_, ?_, by simp⟩
      · intro c hc
        rcases List.mem_cons.mp hc with rfl | hc'
        · exact b64c_mem _ (by omega)
        · rw [List.mem_singleton.mp hc']
          exact b64c_mem _ (by omega)
      · simp [b64encode, List.replicate]
    | [b0, b1] =>
      have h0 : b0 < 256 := hb b0 (by simp)
      have h1 : b1 < 256 := hb b1 (by simp)
      refine ⟨[b64c (b0 / 4), b64c (b0 % 4 * 16 + b1 / 16), b64c (b1 % 16 * 4)], ?_, ?_, by simp⟩
      · intro c hc
        rcases List.mem_cons.mp hc with rfl | hc'
        · exact b64c_mem _ (by omega)
        rcases List.mem_cons.mp hc' with rfl | hc''
        · exact b64c_mem _ (by omega)
        · rw [List.mem_singleton.mp hc'']
          exact b64c_mem _ (by omega)
      · simp [b64encode, List.replicate]
    | b0 :: b1 :: b2 :: rest =>
      have h0 : b0 < 256 := hb b0 (by simp)
      have h1 : b1 < 256 := hb b1 (by simp)
      have h2 : b2 < 256 := hb b2 (by simp)
      rcases ih rest (by simp at hlen; omega) (fun b hbm => hb b (by simp [hbm]))
        with ⟨body, hmem, henc, hmod⟩
      refine ⟨b64c (b0 / 4) :: b64c (b0 % 4 * 16 + b1 / 16)
          :: b64c (b1 % 16 * 4 + b2 / 64) :: b64c (b2 % 64) :: body, ?_, ?_, ?_⟩
      · intro c hc
        rcases List.mem_cons.mp hc with rfl | hc
        · exact b64c_mem _ (by omega)
        rcases List.mem_cons.mp hc with rfl | hc
        · exact b64c_mem _ (by omega)
        rcases List.mem_cons.mp hc with rfl | hc
        · exact b64c_mem _ (by omega)
        rcases List.mem_cons.mp hc with rfl | hc
        · exact b64c_mem _ (by omega)
        · exact hmem c hc
      · have hmodlen : (b0 :: b1 :: b2 :: rest).length % 3 = rest.length % 3 := by
          simp
          omega
        rw [hmodlen]
        rw [show b64encode (b0 :: b1 :: b2 :: rest)
            = b64c (b0 / 4) :: b64c (b0 % 4 * 16 + b1 / 16)
              :: b64c (b1 % 16 * 4 + b2 / 64) :: b64c (b2 % 64) :: b64encode rest from rfl]
        rw [henc]
        rfl
      · have hmodlen : (b0 :: b1 :: b2 :: rest).length % 3 = rest.length % 3 := by
          simp
          omega
        rw [hmodlen]
        simp only [List.length_cons]
        omega

theorem dropWhile_replicate_append (l : List Char) (hl : ∀ c ∈ l, ¬ c = '=') :
    ∀ k, List.dropWhile (fun c => c = '=') (List.replicate k '=' ++ l) = l := by
  intro k
  induction k with
  | zero =>
    simp only [List.replicate, List.nil_append]
    cases l with
    | nil => rfl
    | cons c rest =>
      have hc : ¬ c = '=' := hl c (List.mem_cons_self _ _)
      simp [List.dropWhile, hc]
  | succ j ih =>
    rw [List.replicate_succ, List.cons_append]
    rw [show List.dropWhile (fun c => c = '=') ('=' :: (List.replicate j '=' ++ l))
        = List.dropWhile (fun c => c = '=') (List.replicate j '=' ++ l) from by
      simp [List.dropWhile]]
    exact ih

theorem rstripEq_append_replicate (body : List Char) (k : Nat)
    (hb : ∀ c ∈ body, ¬ c = '=') :
    rstripEq (body ++ List.replicate k '=') = body := by
  unfold rstripEq
  rw [List.reverse_append, List.reverse_replicate]
  rw [dropWhile_replicate_append body.reverse
    (fun c hc => hb c (List.mem_reverse.mp hc)) k]
  exact List.reverse_reverse body

/-- A Python `datetime` as stored in `created_at`: calendar fields plus
an optional fixed UTC offset `(negative?, hours, minutes)`. -/
structure PyDatetime where
  year : Nat
  month : Nat
  day : Nat
  hour : Nat
  minute : Nat
  second : Nat
  microsecond : Nat
  offset : Option (Bool × Nat × Nat)
deriving Repr, DecidableEq

/-- Field ranges under which `datetime(...)` constructs and
`isoformat()` emits the canonical grammar (a negative-zero offset is
excluded: Python renders `timezone(timedelta(0))` as `+00:00`). -/
def PyDatetime.Valid (d : PyDatetime) : Prop :=
  1 ≤ d.year ∧ d.year ≤ 9999 ∧ 1 ≤ d.month ∧ d.month ≤ 12 ∧ 1 ≤ d.day ∧ d.day ≤ 31
  ∧ d.hour ≤ 23 ∧ d.minute ≤ 59 ∧ d.second ≤ 59 ∧ d.microsecond ≤ 999999
  ∧ (∀ s h m, d.offset = some (s, h, m) → h ≤ 23 ∧ m ≤ 59 ∧ (s = true → 0 < h + m))

/-- `datetime.isoformat()`:
`YYYY-MM-DDTHH:MM:SS[.ffffff][±HH:MM]`. -/
def PyDatetime.isoformat (d : PyDatetime) : List Char :=
  digitsFixed 4 d.year ++ ['-'] ++ digitsFixed 2 d.month ++ ['-'] ++ digitsFixed 2 d.day
    ++ ['T'] ++ digitsFixed 2 d.hour ++ [':'] ++ digitsFixed 2 d.minute ++ [':']
    ++ digitsFixed 2 d.second
    ++ (if d.microsecond = 0 then [] else '.' :: digitsFixed 6 d.microsecond)
    ++ (match d.offset with
        | none => []
        | some (s, h, m) =>
          (if s then '-' else '+') :: (digitsFixed 2 h ++ [':'] ++ digitsFixed 2 m))

/-- Expect one literal character. -/
def expectC (c : Char) : List Char → Option (List Char)
  | x :: s => if x = c then some s else none
  | [] => none

/-- The optional fraction part of `parse_datetime`'s grammar
(`.digits`, at most six, right-padded to microseconds). -/
def parseFrac (s : List Char) : Option (Nat × List Char) :=
  match s with
  | '.' :: rest =>
    let ds := rest.takeWhile isDigitC
    if ds.length = 0 ∨ 6 < ds.length then none
    else some (readVar ds 0 * 10 ^ (6 - ds.length), rest.drop ds.length)
  | _ => some (0, s)

/-- The optional `±HH:MM` offset part of `parse_datetime`'s grammar. -/
def parseOffset (s : List Char) : Option (Option (Bool × Nat × Nat) × List Char) :=
  match s with
  | '+' :: rest =>
    match readFixed 2 0 rest with
    | none => none
    | some (h, s1) =>
      match expectC ':' s1 with
      | none => none
      | some s2 =>
        match readFixed 2 0 s2 with
        | none => none
        | some (m, s3) => some (some (false, h, m), s3)
  | '-' :: rest =>
    match readFixed 2 0 rest with
    | none => none
    | some (h, s1) =>
      match expectC ':' s1 with
      | none => none
      | some s2 =>
        match readFixed 2 0 s2 with
        | none => none
        | some (m, s3) => some (some (true, h, m), s3)
  | _ => some (none, s)

/-- Modelled from the spec / `django.utils.dateparse.parse_datetime`
(an external collaborator of the repo), restricted to the canonical
grammar `isoformat` emits: fixed-width date/time fields, optional
fraction, optional `±HH:MM` offset, end of input. -/
def parse_datetime (s : List Char) : Option PyDatetime :=
  match readFixed 4 0 s with
  | none => none
  | some (y, s) =>
    match expectC '-' s with
    | none => none
    | some s =>
      match readFixed 2 0 s with
      | none => none
      | some (mo, s) =>
        match expectC '-' s with
        | none => none
        | some s =>
          match readFixed 2 0 s with
          | none => none
          | some (dy, s) =>
            match expectC 'T' s with
            | none => none
            | some s =>
              match readFixed 2 0 s with
              | none => none
              | some (h, s) =>
                match expectC ':' s with
                | none => none
                | some s =>
                  match readFixed 2 0 s with
                  | none => none
                  | some (mi, s) =>
                    match expectC ':' s with
                    | none => none
                    | some s =>
                      match readFixed 2 0 s with
                      | none => none
                      | some (sec, s) =>
                        match parseFrac s with
                        | none => none
                        | some (us, s) =>
                          match parseOffset s with
                          | none => none
                          | some (off, s) =>
                            if s = [] then
                              some ⟨y, mo, dy, h, mi, sec, us, off⟩
                            else none

theorem takeWhile_append_front (p : Char → Bool) (l1 l2 : List Char)
    (h1 : ∀ x ∈ l1, p x = true) (h2 : ∀ c rest, l2 = c :: rest → p c = false) :
    (l1 ++ l2).takeWhile p = l1 := by
  induction l1 with
  | nil =>
    cases l2 with
    | nil => rfl
    | cons c rest =>
      have hc := h2 c rest rfl
      simp [List.takeWhile, hc]
  | cons x xs ih =>
    have hx := h1 x (List.mem_cons_self _ _)
    rw [List.cons_append, List.takeWhile_cons, hx, if_pos rfl,
      ih (fun c hc => h1 c (List.mem_cons_of_mem _ hc))]

theorem readVar_digitsFixed (w : Nat) :
    ∀ n acc, n < 10 ^ w → readVar (digitsFixed w n) acc = acc * 10 ^ w + n := by
  induction w with
  | zero =>
    intro n acc hn
    have h0 : n = 0 := by omega
    simp [digitsFixed, readVar, h0]
  | succ v ih =>
    intro n acc hn
    rw [show digitsFixed (v + 1) n = digitChar (n / 10 ^ v) :: digitsFixed v (n % 10 ^ v)
        from rfl]
    rw [show readVar (digitChar (n / 10 ^ v) :: digitsFixed v (n % 10 ^ v)) acc
        = readVar (digitsFixed v (n % 10 ^ v)) (acc * 10 + ((digitChar (n / 10 ^ v)).toNat - 48))
        from rfl]
    rw [ih (n % 10 ^ v) _ (Nat.mod_lt _ (by positivity)), digitChar_toNat]
    have hdivlt : n / 10 ^ v < 10 := by
      rw [Nat.div_lt_iff_lt_mul (by positivity)]
      calc n < 10 ^ (v + 1) := hn
        _ = 10 * 10 ^ v := by ring
        _ ≤ 10 * 10 ^ v := le_refl _
    have hq : (n / 10 ^ v) % 10 = n / 10 ^ v := Nat.mod_eq_of_lt hdivlt
    rw [hq]
    have h48 : 48 + n / 10 ^ v - 48 = n / 10 ^ v := by omega
    rw [h48]
    have hsplit : 10 ^ v * (n / 10 ^ v) + n % 10 ^ v = n := Nat.div_add_mod n (10 ^ v)
    calc (acc * 10 + n / 10 ^ v) * 10 ^ v + n % 10 ^ v
        = acc * (10 ^ v * 10) + (10 ^ v * (n / 10 ^ v) + n % 10 ^ v) := by ring
      _ = acc * (10 ^ v * 10) + n := by rw [hsplit]
      _ = acc * 10 ^ (v + 1) + n := by ring

theorem parse_isoformat (d : PyDatetime) (hv : d.Valid) :
    parse_datetime d.isoformat = some d := by
  obtain ⟨y, mo, dy, hh, mi, se, us, off⟩ := d
  obtain ⟨h1, h2, h3, h4, h5, h6, h7, h8, h9, h10, hoff⟩ := hv
  simp only at h1 h2 h3 h4 h5 h6 h7 h8 h9 h10
  have ey : ∀ rest, readFixed 4 0 (digitsFixed 4 y ++ rest) = some (y, rest) := by
    intro rest
    rw [readFixed_digitsFixed 4 y 0 rest
      (by simp only [show (10:Nat) ^ 4 = 10000 from by norm_num]; omega)]
    norm_num
  have e2 : ∀ (n : Nat), n ≤ 99 →
      ∀ rest, readFixed 2 0 (digitsFixed 2 n ++ rest) = some (n, rest) := by
    intro n hn rest
    rw [readFixed_digitsFixed 2 n 0 rest
      (by simp only [show (10:Nat) ^ 2 = 100 from by norm_num]; omega)]
    norm_num
  replace hoff : ∀ s h m, off = some (s, h, m) → h ≤ 23 ∧ m ≤ 59 ∧ (s = true → 0 < h + m) :=
    hoff
  have e6 : readVar (digitsFixed 6 us) 0 * 10 ^ (6 - (digitsFixed 6 us).length) = us := by
    rw [digitsFixed_length, readVar_digitsFixed 6 us 0
      (by simp only [show (10:Nat) ^ 6 = 1000000 from by norm_num]; omega)]
    norm_num
  have emo := e2 mo (by omega)
  have edy := e2 dy (by omega)
  have ehh := e2 hh (by omega)
  have emi := e2 mi (by omega)
  have ese := e2 se (by omega)
  have ese0 : readFixed 2 0 (digitsFixed 2 se) = some (se, []) := by
    have h := ese []
    simpa using h
  have htw : List.takeWhile isDigitC (digitsFixed 6 us) = digitsFixed 6 us := by
    have h := takeWhile_append_front isDigitC (digitsFixed 6 us) []
      (digitsFixed_digits 6 us) (fun c rest h => by cases h)
    simpa using h
  have erv : readVar (digitsFixed 6 us) 0 = us := by
    rw [readVar_digitsFixed 6 us 0
      (by simp only [show (10:Nat) ^ 6 = 1000000 from by norm_num]; omega)]
    norm_num
  have hfrac1 : parseFrac ('.' :: digitsFixed 6 us) = some (us, []) := by
    rw [show parseFrac ('.' :: digitsFixed 6 us)
        = (if ((digitsFixed 6 us).takeWhile isDigitC).length = 0
              ∨ 6 < ((digitsFixed 6 us).takeWhile isDigitC).length then none
           else some (readVar ((digitsFixed 6 us).takeWhile isDigitC) 0
              * 10 ^ (6 - ((digitsFixed 6 us).takeWhile isDigitC).length),
              (digitsFixed 6 us).drop ((digitsFixed 6 us).takeWhile isDigitC).length))
        from rfl]
    rw [htw, digitsFixed_length, erv]
    rw [if_neg (by omega)]
    rw [show (digitsFixed 6 us).drop 6 = (digitsFixed 6 us).drop (digitsFixed 6 us).length
        from by rw [digitsFixed_length]]
    rw [List.drop_length]
    norm_num
  have hfrac0 : parseFrac [] = some (0, []) := rfl
  have hfracp : ∀ (c : Char) (tl : List Char), isDigitC c = false →
      parseFrac ('.' :: (digitsFixed 6 us ++ (c :: tl))) = some (us, c :: tl) := by
    intro c tl hc
    rw [show parseFrac ('.' :: (digitsFixed 6 us ++ (c :: tl)))
        = (if ((digitsFixed 6 us ++ (c :: tl)).takeWhile isDigitC).length = 0
              ∨ 6 < ((digitsFixed 6 us ++ (c :: tl)).takeWhile isDigitC).length then none
           else some (readVar ((digitsFixed 6 us ++ (c :: tl)).takeWhile isDigitC) 0
              * 10 ^ (6 - ((digitsFixed 6 us ++ (c :: tl)).takeWhile isDigitC).length),
              (digitsFixed 6 us ++ (c :: tl)).drop
                ((digitsFixed 6 us ++ (c :: tl)).takeWhile isDigitC).length))
        from rfl]
    rw [takeWhile_append_front isDigitC (digitsFixed 6 us) (c :: tl)
      (digitsFixed_digits 6 us) (fun c' r' h' => by cases h'; exact hc)]
    rw [digitsFixed_length, erv]
    rw [if_neg (by omega)]
    rw [show (digitsFixed 6 us ++ (c :: tl)).drop 6
        = (digitsFixed 6 us ++ (c :: tl)).drop (digitsFixed 6 us).length
        from by rw [digitsFixed_length]]
    rw [List.drop_left]
    norm_num
  have hpo0 : parseOffset [] = some (none, []) := rfl
  cases hoffq : off with
  | none =>
    by_cases hus : us = 0
    · simp [PyDatetime.isoformat, parse_datetime, hus, ey, emo, edy, ehh, emi, ese0,
        expectC, hfrac0, hpo0]
    · simp [PyDatetime.isoformat, parse_datetime, hus, ey, emo, edy, ehh, emi, ese,
        expectC, hfrac1, hpo0]
  | some shm =>
    rcases shm with ⟨sg, oh, om⟩
    obtain ⟨hh23, hm59, -⟩ := hoff sg oh om (by rw [hoffq])
    have eom0 : readFixed 2 0 (digitsFixed 2 om) = some (om, []) := by
      have h := e2 om (by omega) []
      simpa using h
    cases sg with
    | false =>
      have hpo : parseOffset ('+' :: (digitsFixed 2 oh ++ (':' :: digitsFixed 2 om)))
          = some (some (false, oh, om), []) := by
        simp [parseOffset, e2 oh (by omega), expectC, eom0]
      have hfracplus : ∀ tl : List Char, parseFrac ('+' :: tl) = some (0, '+' :: tl) := by
        intro tl
        rfl
      by_cases hus : us = 0
      · simp [PyDatetime.isoformat, parse_datetime, hus, ey, emo, edy, ehh, emi, ese,
          expectC, hfracplus, hpo]
      · simp [PyDatetime.isoformat, parse_datetime, hus, ey, emo, edy, ehh, emi, ese,
          expectC, hfracp '+' _ (by decide), hpo]
    | true =>
      have hpo : parseOffset ('-' :: (digitsFixed 2 oh ++ (':' :: digitsFixed 2 om)))
          = some (some (true, oh, om), []) := by
        simp [parseOffset, e2 oh (by omega), expectC, eom0]
      have hfracminus : ∀ tl : List Char, parseFrac ('-' :: tl) = some (0, '-' :: tl) := by
        intro tl
        rfl
      by_cases hus : us = 0
      · simp [PyDatetime.isoformat, parse_datetime, hus, ey, emo, edy, ehh, emi, ese,
          expectC, hfracminus, hpo]
      · simp [PyDatetime.isoformat, parse_datetime, hus, ey, emo, edy, ehh, emi, ese,
          expectC, hfracp '-' _ (by decide), hpo]

/-- `json.dumps({"created_at": iso, "feed_item_id": fid}, separators=(",", ":"))`:
the compact two-field object (no characters of `iso` need escaping). -/
def payloadChars (iso : List Char) (fid : Nat) : List Char :=
  "\x7b\"created_at\":\"".data
    ++ (iso ++ ("\",\"feed_item_id\":".data ++ (natDigits fid ++ ['\x7d'])))

/-- Expect a literal character sequence. -/
def expectSeq (pat s : List Char) : Option (List Char) :=
  if s.take pat.length = pat then some (s.drop pat.length) else none

/-- Modelled from the spec / `json.loads` (an external collaborator),
restricted to the compact objects `payloadChars` emits: the two fields
in order, the timestamp a plain string, the id a digit run. -/
def parsePayload (s : List Char) : Option (List Char × Nat) :=
  match expectSeq "\x7b\"created_at\":\"".data s with
  | none => none
  | some s1 =>
    match expectSeq "\",\"feed_item_id\":".data
        (s1.drop (s1.takeWhile (fun c => ¬ c = '"')).length) with
    | none => none
    | some s3 =>
      if (s3.takeWhile isDigitC).length = 0 then none
      else if s3.drop (s3.takeWhile isDigitC).length = ['\x7d'] then
        some (s1.takeWhile (fun c => ¬ c = '"'), readVar (s3.takeWhile isDigitC) 0)
      else none

/-- `encode_feed_cursor`: compact JSON, UTF-8, URL-safe base64, strip
`=` padding. -/
def encode_feed_cursor (t : PyDatetime) (fid : Nat) : List Char :=
  rstripEq (b64encode ((payloadChars t.isoformat fid).map Char.toNat))

/-- `decode_feed_cursor`: reject empty, re-pad to a multiple of 4,
base64-decode, UTF-8-decode (ASCII in this model), parse the payload,
parse the timestamp, reject non-positive ids. -/
def decode_feed_cursor (cursor : List Char) : Option (PyDatetime × Nat) :=
  if cursor = [] then none
  else
    match b64decode (cursor ++ List.replicate ((4 - cursor.length % 4) % 4) '=') with
    | none => none
    | some bytes =>
      if bytes.all (fun b => decide (b < 128)) then
        match parsePayload (bytes.map Char.ofNat) with
        | none => none
        | some (iso, fid) =>
          match parse_datetime iso with
          | none => none
          | some dt => if fid ≤ 0 then none else some (dt, fid)
      else none

/-- ASCII, non-quote characters (everything `isoformat` and the payload
literals emit). -/
def goodC (c : Char) : Bool := decide (c.toNat < 128) && decide (¬ c = '"')

theorem goodC_digitsFixed (w n : Nat) : (digitsFixed w n).all goodC = true := by
  rw [List.all_eq_true]
  intro c hc
  have hd := digitsFixed_digits w n c hc
  simp only [isDigitC, Bool.decide_and, Bool.and_eq_true, decide_eq_true_eq] at hd
  have hq : ('"').toNat = 34 := rfl
  simp only [goodC, Bool.and_eq_true, decide_eq_true_eq]
  refine ⟨by omega, ?_⟩
  intro he
  rw [he, hq] at hd
  omega

theorem goodC_natDigits (n : Nat) : (natDigits n).all goodC = true := by
  rw [List.all_eq_true]
  intro c hc
  have hd := natDigits_digits (n + 1) n c hc
  simp only [isDigitC, Bool.decide_and, Bool.and_eq_true, decide_eq_true_eq] at hd
  have hq : ('"').toNat = 34 := rfl
  simp only [goodC, Bool.and_eq_true, decide_eq_true_eq]
  refine ⟨by omega, ?_⟩
  intro he
  rw [he, hq] at hd
  omega

theorem goodC_isoformat (d : PyDatetime) : (d.isoformat).all goodC = true := by
  obtain ⟨y, mo, dy, hh, mi, se, us, off⟩ := d
  unfold PyDatetime.isoformat
  by_cases hus : us = 0 <;> cases off with
  | none =>
    simp [List.all_append, goodC_digitsFixed, hus, goodC]
  | some shm =>
    rcases shm with ⟨sg, oh, om⟩
    cases sg <;> simp [List.all_append, goodC_digitsFixed, hus, goodC]

/-- ASCII characters. -/
def asciiC (c : Char) : Bool := decide (c.toNat < 128)

theorem asciiC_of_goodC (l : List Char) (h : l.all goodC = true) : l.all asciiC = true := by
  rw [List.all_eq_true] at h ⊢
  intro c hc
  have hg := h c hc
  simp only [goodC, Bool.and_eq_true, decide_eq_true_eq] at hg
  simp only [asciiC, decide_eq_true_eq]
  exact hg.1

theorem all_asciiC_payload (iso : List Char) (fid : Nat) (hiso : iso.all asciiC = true) :
    (payloadChars iso fid).all asciiC = true := by
  unfold payloadChars
  simp only [List.all_append, Bool.and_eq_true]
  have hnat : (natDigits fid).all asciiC = true :=
    asciiC_of_goodC _ (goodC_natDigits fid)
  refine ⟨by decide, hiso, by decide, hnat, by decide⟩

theorem expectSeq_append (pat rest : List Char) : expectSeq pat (pat ++ rest) = some rest := by
  unfold expectSeq
  rw [List.take_left, if_pos rfl, List.drop_left]

theorem parsePayload_payloadChars (iso : List Char) (fid : Nat)
    (hiso : ∀ c ∈ iso, ¬ c = '"') :
    parsePayload (payloadChars iso fid) = some (iso, fid) := by
  have htw : (iso ++ ("\",\"feed_item_id\":".data ++ (natDigits fid ++ ['\x7d']))).takeWhile
      (fun c => ¬ c = '"') = iso := by
    refine takeWhile_append_front _ iso _ (fun x hx => by simpa using hiso x hx) ?_
    intro c r h
    have hl2 : "\",\"feed_item_id\":".data ++ (natDigits fid ++ ['\x7d'])
        = '"' :: (",\"feed_item_id\":".data ++ (natDigits fid ++ ['\x7d'])) := rfl
    rw [hl2] at h
    injection h with hc _
    rw [← hc]
    decide
  have htwd : (natDigits fid ++ ['\x7d']).takeWhile isDigitC = natDigits fid := by
    refine takeWhile_append_front isDigitC (natDigits fid) _
      (fun x hx => natDigits_digits (fid + 1) fid x hx) ?_
    intro c r h
    injection h with hc _
    rw [← hc]
    decide
  have hlen0 : ¬ ((natDigits fid).length = 0) := by
    have h := natDigitsAux_length_pos (fid + 1) fid (by omega)
    unfold natDigits
    omega
  simp only [parsePayload, payloadChars, expectSeq_append, htw, List.drop_left, htwd,
    readVar_natDigits, hlen0, if_false, if_pos rfl]
  simp

theorem b64encode_length_ge (bs : List Nat) (h : bs ≠ []) : 4 ≤ (b64encode bs).length := by
  match bs with
  | [b0] => rfl
  | [b0, b1] => rfl
  | b0 :: b1 :: b2 :: rest =>
    rw [show b64encode (b0 :: b1 :: b2 :: rest)
        = b64c (b0 / 4) :: b64c (b0 % 4 * 16 + b1 / 16) :: b64c (b1 % 16 * 4 + b2 / 64)
          :: b64c (b2 % 64) :: b64encode rest from rfl]
    simp only [List.length_cons]
    omega

/-- C6: for every valid timestamp and positive id, decoding the encoded
cursor returns exactly the pair, and the encoded token consists only of
URL-safe base64 alphabet characters, with no `=` padding. -/
theorem c6_cursor_roundtrip (t : PyDatetime) (fid : Nat) (hv : t.Valid) (hfid : 0 < fid) :
    decode_feed_cursor (encode_feed_cursor t fid) = some (t, fid)
    ∧ (∀ c ∈ encode_feed_cursor t fid, c ∈ b64Alphabet ∧ ¬ c = '=') := by
  have hgood : (t.isoformat).all goodC = true := goodC_isoformat t
  have hascii : ((payloadChars t.isoformat fid).map Char.toNat).all
      (fun b => decide (b < 128)) = true := by
    have hp := all_asciiC_payload t.isoformat fid (asciiC_of_goodC _ hgood)
    rw [List.all_eq_true] at hp ⊢
    intro b hb
    rcases List.mem_map.mp hb with ⟨c, hc, rfl⟩
    have := hp c hc
    simpa [asciiC] using this
  have hb256 : ∀ b ∈ (payloadChars t.isoformat fid).map Char.toNat, b < 256 := by
    rw [List.all_eq_true] at hascii
    intro b hb
    have := hascii b hb
    simp at this
    omega
  obtain ⟨body, hmem, henc, hmod⟩ :=
    b64encode_shape ((payloadChars t.isoformat fid).map Char.toNat).length
      ((payloadChars t.isoformat fid).map Char.toNat) le_rfl hb256
  have hk2 : (3 - ((payloadChars t.isoformat fid).map Char.toNat).length % 3) % 3 ≤ 2 := by
    omega
  have hstrip : encode_feed_cursor t fid = body := by
    unfold encode_feed_cursor
    rw [henc]
    exact rstripEq_append_replicate body _ (fun c hc => by
      have := b64Alphabet_ne_pad c (hmem c hc)
      simpa using this)
  have hpayne : payloadChars t.isoformat fid ≠ [] := by
    unfold payloadChars
    simp
  have hbytesne : (payloadChars t.isoformat fid).map Char.toNat ≠ [] := by
    simpa using hpayne
  have hlen4 : 4 ≤ (b64encode ((payloadChars t.isoformat fid).map Char.toNat)).length :=
    b64encode_length_ge _ hbytesne
  have hbodylen : 2 ≤ body.length := by
    have hlen : (b64encode ((payloadChars t.isoformat fid).map Char.toNat)).length
        = body.length + (3 - ((payloadChars t.isoformat fid).map Char.toNat).length % 3) % 3 := by
      rw [henc, List.length_append, List.length_replicate]
    omega
  have hbodyne : body ≠ [] := by
    intro h
    rw [h] at hbodylen
    simp at hbodylen
  have hpad : body ++ List.replicate ((4 - body.length % 4) % 4) '='
      = b64encode ((payloadChars t.isoformat fid).map Char.toNat) := by
    rw [henc]
    have hkeq : (4 - body.length % 4) % 4
        = (3 - ((payloadChars t.isoformat fid).map Char.toNat).length % 3) % 3 := by
      omega
    rw [hkeq]
  have hdec : b64decode (body ++ List.replicate ((4 - body.length % 4) % 4) '=')
      = some ((payloadChars t.isoformat fid).map Char.toNat) := by
    rw [hpad]
    exact b64decode_b64encode _ _ le_rfl hb256
  have hmapmap : ((payloadChars t.isoformat fid).map Char.toNat).map Char.ofNat
      = payloadChars t.isoformat fid := by
    rw [List.map_map]
    have : (Char.ofNat ∘ Char.toNat) = id := by
      funext c
      exact Char.ofNat_toNat c
    rw [this, List.map_id]
  have hisoq : ∀ c ∈ t.isoformat, ¬ c = '"' := by
    intro c hc
    rw [List.all_eq_true] at hgood
    have := hgood c hc
    simp only [goodC, Bool.and_eq_true, decide_eq_true_eq] at this
    exact this.2
  have hpp : parsePayload (payloadChars t.isoformat fid) = some (t.isoformat, fid) :=
    parsePayload_payloadChars t.isoformat fid hisoq
  have hpd : parse_datetime t.isoformat = some t := parse_isoformat t hv
  have hfid0 : ¬ (fid ≤ 0) := by omega
  constructor
  · rw [hstrip]
    simp only [decode_feed_cursor, hbodyne, if_neg, hdec, hascii, hmapmap, hpp, hpd]
    simp [hbodyne, hfid0]
  · intro c hc
    rw [hstrip] at hc
    exact ⟨hmem c hc, fun he => b64Alphabet_ne_pad c (hmem c hc) (by simpa using he)⟩

/-- Closed witness for `c6_cursor_roundtrip` at a concrete timestamp and
id 7. -/
theorem c6_cursor_roundtrip_witness :
    ((⟨2025, 1, 2, 3, 4, 5, 0, none⟩ : PyDatetime).Valid ∧ 0 < 7)
    ∧ (decode_feed_cursor (encode_feed_cursor ⟨2025, 1, 2, 3, 4, 5, 0, none⟩ 7)
          = some (⟨2025, 1, 2, 3, 4, 5, 0, none⟩, 7)
        ∧ (∀ c ∈ encode_feed_cursor ⟨2025, 1, 2, 3, 4, 5, 0, none⟩ 7,
            c ∈ b64Alphabet ∧ ¬ c = '=')) := by
  have hv : (⟨2025, 1, 2, 3, 4, 5, 0, none⟩ : PyDatetime).Valid := by
    refine ⟨by decide, by decide, by decide, by decide, by decide, by decide, by decide,
      by decide, by decide, by decide, ?_⟩
    intro s h m h'
    exact Option.noConfusion h'
  exact ⟨⟨hv, by decide⟩, c6_cursor_roundtrip _ 7 hv (by decide)⟩

/-! ## The store and the ingest coordinator (`activity/views.py`) -/

/-- An activity Event row (entity fields per the spec's data model;
`models.py` only declares columns). -/
structure Event where
  id : Nat
  actor_id : Int
  verb : String
  object_type : String
  object_id : String
  created_at : Int
deriving Repr, DecidableEq

/-- A FeedItem row (`UNIQUE(user_id, event_id)`). -/
structure FeedItem where
  id : Nat
  user_id : Int
  event_id : Nat
  created_at : Int
deriving Repr, DecidableEq

/-- A Notification row (`UNIQUE(user_id, event_id)`; ids insertion-ordered). -/
structure Notification where
  id : Nat
  user_id : Int
  event_id : Nat
  created_at : Int
deriving Repr, DecidableEq

/-- An IdempotencyKey row (`UNIQUE(key)`, nullable event binding). -/
structure IdemRow where
  key : String
  event_id : Option Nat
deriving Repr, DecidableEq

/-- The transactional store: the four tables plus the id sequence. -/
structure Store where
  events : List Event
  feedItems : List FeedItem
  notifications : List Notification
  idemKeys : List IdemRow
  nextId : Nat
deriving Repr, DecidableEq

/-- An ingest request body after validation (`EventIngestSerializer`). -/
structure IngestReq where
  actor_id : Int
  verb : String
  object_type : String
  object_id : String
  target_user_ids : List Int
  created_at : Int
deriving Repr, DecidableEq

/-- `list(dict.fromkeys(...))`: stable de-duplication keeping the first
occurrence. -/
def dedupFirst (l : List Int) : List Int :=
  l.foldl (fun acc x => if x ∈ acc then acc else acc ++ [x]) []

/-- `FeedItem.objects.bulk_create(..., ignore_conflicts=True)`: insert a
row per target unless `(user_id, event_id)` already exists. -/
def insertFeedItems (st : Store) (targets : List Int) (eid : Nat) (ts : Int) : Store :=
  targets.foldl
    (fun s uid =>
      if s.feedItems.any (fun fi => fi.user_id = uid ∧ fi.event_id = eid) then s
      else { s with feedItems := s.feedItems ++ [⟨s.nextId, uid, eid, ts⟩], nextId := s.nextId + 1 })
    st

/-- `Notification.objects.bulk_create(..., ignore_conflicts=True)`. -/
def insertNotifications (st : Store) (targets : List Int) (eid : Nat) (ts : Int) : Store :=
  targets.foldl
    (fun s uid =>
      if s.notifications.any (fun n => n.user_id = uid ∧ n.event_id = eid) then s
      else { s with notifications := s.notifications ++ [⟨s.nextId, uid, eid, ts⟩], nextId := s.nextId + 1 })
    st

/-- The write path of `EventIngestView.post` after the idempotency
check: insert the Event, fan out, and bind the held idempotency key. -/
def ingestCore (st : Store) (req : IngestReq) (bindKey : Option String) : Store × Nat :=
  let targets := dedupFirst req.target_user_ids
  let eid := st.nextId
  let st1 := { st with
    events := st.events ++ [⟨eid, req.actor_id, req.verb, req.object_type, req.object_id,
      req.created_at⟩],
    nextId := st.nextId + 1 }
  let st2 := insertFeedItems st1 targets eid req.created_at
  let st3 := insertNotifications st2 targets eid req.created_at
  let st4 :=
    match bindKey with
    | none => st3
    | some key =>
      { st3 with
        idemKeys := st3.idemKeys.map
          (fun r => if r.key = key then { r with event_id := some eid } else r) }
  (st4, eid)

/-- `EventIngestView.post` (transaction body, valid request): returns
the new store, the `event_id`, and whether a new Event was created
(HTTP 201) or an idempotent replay was answered (HTTP 200). -/
def ingest (st : Store) (req : IngestReq) (idemKey : Option String) : Store × Nat × Bool :=
  match idemKey with
  | none =>
    let r := ingestCore st req none
    (r.1, r.2, true)
  | some key =>
    match st.idemKeys.find? (fun r => r.key = key) with
    | none =>
      let stk := { st with idemKeys := st.idemKeys ++ [⟨key, none⟩] }
      let r := ingestCore stk req (some key)
      (r.1, r.2, true)
    | some existing =>
      match existing.event_id with
      | some eid => (st, eid, false)
      | none =>
        let r := ingestCore st req (some key)
        (r.1, r.2, true)

theorem find?_append_none {α : Type} (p : α → Bool) (l1 l2 : List α)
    (h : l1.find? p = none) : (l1 ++ l2).find? p = l2.find? p := by
  induction l1 with
  | nil => rfl
  | cons x xs ih =>
    rw [List.find?_cons] at h
    cases hp : p x with
    | true => rw [hp] at h; simp at h
    | false =>
      rw [hp] at h
      rw [List.cons_append, List.find?_cons, hp]
      exact ih h

theorem find?_bindMap (l : List IdemRow) (key : String) (eid : Nat) :
    (l.map (fun r => if r.key = key then { r with event_id := some eid } else r)).find?
        (fun r => r.key = key)
      = (l.find? (fun r => r.key = key)).map
          (fun r => if r.key = key then { r with event_id := some eid } else r) := by
  induction l with
  | nil => rfl
  | cons r0 rest ih =>
    by_cases hk : r0.key = key
    · simp [List.find?_cons, hk]
    · simp [List.find?_cons, hk, ih]

theorem insertFeedItems_idemKeys (targets : List Int) :
    ∀ (st : Store) (eid : Nat) (ts : Int),
      (insertFeedItems st targets eid ts).idemKeys = st.idemKeys := by
  induction targets with
  | nil => intro st eid ts; rfl
  | cons uid rest ih =>
    intro st eid ts
    rw [show insertFeedItems st (uid :: rest) eid ts = insertFeedItems (if st.feedItems.any (fun fi => fi.user_id = uid ∧ fi.event_id = eid) then st else { st with feedItems := st.feedItems ++ [⟨st.nextId, uid, eid, ts⟩], nextId := st.nextId + 1 }) rest eid ts from rfl]
    rw [ih]
    by_cases h : st.feedItems.any (fun fi => fi.user_id = uid ∧ fi.event_id = eid) = true
    · rw [if_pos h]
    · rw [if_neg h]

theorem insertNotifications_idemKeys (targets : List Int) :
    ∀ (st : Store) (eid : Nat) (ts : Int),
      (insertNotifications st targets eid ts).idemKeys = st.idemKeys := by
  induction targets with
  | nil => intro st eid ts; rfl
  | cons uid rest ih =>
    intro st eid ts
    rw [show insertNotifications st (uid :: rest) eid ts = insertNotifications (if st.notifications.any (fun n => n.user_id = uid ∧ n.event_id = eid) then st else { st with notifications := st.notifications ++ [⟨st.nextId, uid, eid, ts⟩], nextId := st.nextId + 1 }) rest eid ts from rfl]
    rw [ih]
    by_cases h : st.notifications.any (fun n => n.user_id = uid ∧ n.event_id = eid) = true
    · rw [if_pos h]
    · rw [if_neg h]

theorem ingestCore_idemKeys_bound (st : Store) (req : IngestReq) (key : String) :
    (ingestCore st req (some key)).1.idemKeys
      = st.idemKeys.map (fun r => if r.key = key
          then { r with event_id := some (ingestCore st req (some key)).2 } else r) := by
  simp only [ingestCore, insertNotifications_idemKeys, insertFeedItems_idemKeys]

theorem ingest_of_not_found (st : Store) (req : IngestReq) (key : String)
    (hfind : st.idemKeys.find? (fun r => r.key = key) = none) :
    (ingest st req (some key)).1
        = (ingestCore { st with idemKeys := st.idemKeys ++ [⟨key, none⟩] } req (some key)).1
      ∧ (ingest st req (some key)).2.1
        = (ingestCore { st with idemKeys := st.idemKeys ++ [⟨key, none⟩] } req (some key)).2
      ∧ (ingest st req (some key)).2.2 = true := by
  unfold ingest
  simp only [hfind]
  exact ⟨trivial, trivial, trivial⟩

theorem ingest_of_found_unbound (st : Store) (req : IngestReq) (key : String)
    (hfind : st.idemKeys.find? (fun r => r.key = key) = some ⟨key, none⟩) :
    (ingest st req (some key)).1 = (ingestCore st req (some key)).1
      ∧ (ingest st req (some key)).2.1 = (ingestCore st req (some key)).2
      ∧ (ingest st req (some key)).2.2 = true := by
  unfold ingest
  simp only [hfind]
  exact ⟨trivial, trivial, trivial⟩

theorem ingest_of_found_bound (st : Store) (req : IngestReq) (key : String) (eid : Nat)
    (hfind : st.idemKeys.find? (fun r => r.key = key) = some ⟨key, some eid⟩) :
    (ingest st req (some key)).1 = st
      ∧ (ingest st req (some key)).2.1 = eid
      ∧ (ingest st req (some key)).2.2 = false := by
  unfold ingest
  simp only [hfind]
  exact ⟨trivial, trivial, trivial⟩

/-- After a keyed ingest, the key's row is bound to the returned id. -/
theorem ingest_binds (st : Store) (req : IngestReq) (key : String) :
    ((ingest st req (some key)).1).idemKeys.find? (fun r => r.key = key)
      = some ⟨key, some (ingest st req (some key)).2.1⟩ := by
  cases hfind : st.idemKeys.find? (fun r => r.key = key) with
  | none =>
    obtain ⟨h1, h2, _⟩ := ingest_of_not_found st req key hfind
    rw [h1, h2, ingestCore_idemKeys_bound]
    rw [show ({ st with idemKeys := st.idemKeys ++ [⟨key, none⟩] } : Store).idemKeys
        = st.idemKeys ++ [⟨key, none⟩] from rfl]
    rw [find?_bindMap, find?_append_none _ _ _ hfind]
    simp [List.find?_cons]
  | some existing =>
    rcases existing with ⟨k0, ev0⟩
    have hp := List.find?_some hfind
    simp only [decide_eq_true_eq] at hp
    rw [hp] at hfind
    cases ev0 with
    | some eid =>
      obtain ⟨h1, h2, _⟩ := ingest_of_found_bound st req key eid hfind
      rw [h1, h2, hfind]
    | none =>
      obtain ⟨h1, h2, _⟩ := ingest_of_found_unbound st req key hfind
      rw [h1, h2, ingestCore_idemKeys_bound, find?_bindMap, hfind]
      simp

/-- C1: two ingest calls with the same idempotency key return the same
`event_id`; the second short-circuits with `created = false` and leaves
the store unchanged, so no new Event, FeedItem or Notification row is
inserted and the rows attributable to the key equal those of a single
call. -/
theorem c1_idempotent_replay (st : Store) (req1 req2 : IngestReq) (key : String) :
    (ingest ((ingest st req1 (some key)).1) req2 (some key)).2.1
        = (ingest st req1 (some key)).2.1
    ∧ (ingest ((ingest st req1 (some key)).1) req2 (some key)).2.2 = false
    ∧ (ingest ((ingest st req1 (some key)).1) req2 (some key)).1
        = (ingest st req1 (some key)).1
    ∧ ((ingest ((ingest st req1 (some key)).1) req2 (some key)).1).events.length
        = ((ingest st req1 (some key)).1).events.length
    ∧ ((ingest ((ingest st req1 (some key)).1) req2 (some key)).1).feedItems.length
        = ((ingest st req1 (some key)).1).feedItems.length
    ∧ ((ingest ((ingest st req1 (some key)).1) req2 (some key)).1).notifications.length
        = ((ingest st req1 (some key)).1).notifications.length := by
  obtain ⟨h1, h2, h3⟩ := ingest_of_found_bound ((ingest st req1 (some key)).1) req2 key
    ((ingest st req1 (some key)).2.1) (ingest_binds st req1 key)
  refine ⟨h2, h3, h1, ?_, ?_, ?_⟩ <;> rw [h1]

/-! ## Feed pagination (`FeedView.get`) -/

/-- `a` strictly precedes `b` in `(created_at DESC, id DESC)` order. -/
def ltF (a b : FeedItem) : Bool :=
  decide (b.created_at < a.created_at ∨ (b.created_at = a.created_at ∧ b.id < a.id))

def insertFi (a : FeedItem) : List FeedItem → List FeedItem
  | [] => [a]
  | x :: xs => if ltF a x then a :: x :: xs else x :: insertFi a xs

/-- `ORDER BY created_at DESC, id DESC` (stable insertion sort). -/
def sortFi : List FeedItem → List FeedItem
  | [] => []
  | x :: xs => insertFi x (sortFi xs)

/-- The keyset-cursor predicate of `FeedView.get`:
`created_at < c.created_at OR (created_at = c.created_at AND id < c.feed_item_id)`. -/
def cpred (c : Option (Int × Nat)) (fi : FeedItem) : Bool :=
  match c with
  | none => true
  | some (cts, cid) => decide (fi.created_at < cts ∨ (fi.created_at = cts ∧ fi.id < cid))

/-- The user's feed rows in response order. -/
def userRows (tbl : List FeedItem) (uid : Int) : List FeedItem :=
  sortFi (tbl.filter (fun fi => fi.user_id = uid))

/-- The page of rows `FeedView.get` returns. -/
def feedPageItems (tbl : List FeedItem) (uid : Int) (c : Option (Int × Nat)) (limit : Nat) :
    List FeedItem :=
  ((userRows tbl uid).filter (cpred c)).take limit

/-- The `next_cursor` field: set from the last row iff exactly `limit`
rows were returned. -/
def feedNext (tbl : List FeedItem) (uid : Int) (c : Option (Int × Nat)) (limit : Nat) :
    Option (Int × Nat) :=
  if (feedPageItems tbl uid c limit).length = limit
  then (feedPageItems tbl uid c limit).getLast?.map (fun last => (last.created_at, last.id))
  else none

/-- Repeatedly call `FeedView.get`, feeding `next_cursor` back, until it
is null; `fuel` bounds the number of round trips. -/
def paginateFeed (tbl : List FeedItem) (uid : Int) (limit : Nat) : Nat → Option (Int × Nat) → List FeedItem
  | 0, _ => []
  | fuel+1, c =>
    match feedNext tbl uid c limit with
    | none => feedPageItems tbl uid c limit
    | some c' => feedPageItems tbl uid c limit ++ paginateFeed tbl uid limit fuel (some c')

theorem ltF_irrefl (a : FeedItem) : ltF a a = false := by
  simp only [ltF, decide_eq_false_iff_not]
  omega

theorem ltF_asymm (x a : FeedItem) (h : ltF x a = true) : ltF a x = false := by
  simp only [ltF, decide_eq_true_eq] at h
  simp only [ltF, decide_eq_false_iff_not]
  omega

theorem ltF_total (x y : FeedItem) (hne : x.id ≠ y.id) (h : ltF y x = false) :
    ltF x y = true := by
  simp only [ltF, decide_eq_false_iff_not] at h
  simp only [ltF, decide_eq_true_eq]
  omega

theorem ltF_trans_neg (x y z : FeedItem) (h1 : ltF x y = true) (h2 : ltF z y = false) :
    ltF z x = false := by
  simp only [ltF, decide_eq_true_eq] at h1
  simp only [ltF, decide_eq_false_iff_not] at h2 ⊢
  omega

theorem insertFi_perm (a : FeedItem) (l : List FeedItem) :
    (insertFi a l).Perm (a :: l) := by
  induction l with
  | nil => exact List.Perm.refl _
  | cons x xs ih =>
    rw [show insertFi a (x :: xs) = if ltF a x then a :: x :: xs else x :: insertFi a xs from rfl]
    by_cases h : ltF a x = true
    · rw [if_pos h]
    · rw [if_neg h]
      exact (ih.cons x).trans (List.Perm.swap a x xs)

theorem sortFi_perm (l : List FeedItem) : (sortFi l).Perm l := by
  induction l with
  | nil => exact List.Perm.refl _
  | cons x xs ih =>
    exact (insertFi_perm x (sortFi xs)).trans (ih.cons x)

theorem insertFi_sorted (a : FeedItem) (l : List FeedItem)
    (hs : List.Pairwise (fun x y => ltF y x = false) l) :
    List.Pairwise (fun x y => ltF y x = false) (insertFi a l) := by
  induction l with
  | nil => exact List.pairwise_singleton _ a
  | cons x xs ih =>
    rw [List.pairwise_cons] at hs
    obtain ⟨hx, hxs⟩ := hs
    rw [show insertFi a (x :: xs) = if ltF a x then a :: x :: xs else x :: insertFi a xs from rfl]
    by_cases h : ltF a x = true
    · rw [if_pos h]
      rw [List.pairwise_cons]
      constructor
      · intro y hy
        rcases List.mem_cons.mp hy with hy | hy
        · subst hy; exact ltF_asymm a y h
        · exact ltF_trans_neg a x y h (hx y hy)
      · rw [List.pairwise_cons]
        exact ⟨hx, hxs⟩
    · rw [if_neg h]
      rw [List.pairwise_cons]
      constructor
      · intro y hy
        rcases List.mem_cons.mp ((insertFi_perm a xs).mem_iff.mp hy) with hy | hy
        · subst hy
          exact Bool.eq_false_iff.mpr h
        · exact hx y hy
      · exact ih hxs

theorem sortFi_sorted (l : List FeedItem) :
    List.Pairwise (fun x y => ltF y x = false) (sortFi l) := by
  induction l with
  | nil => exact List.Pairwise.nil
  | cons x xs ih => exact insertFi_sorted x (sortFi xs) ih

theorem pairwise_ltF_of_nodup (l : List FeedItem)
    (hs : List.Pairwise (fun x y => ltF y x = false) l)
    (hids : (l.map (fun fi => fi.id)).Nodup) :
    List.Pairwise (fun x y => ltF x y = true) l := by
  induction l with
  | nil => exact List.Pairwise.nil
  | cons x xs ih =>
    rw [List.pairwise_cons] at hs
    rw [List.map_cons, List.nodup_cons] at hids
    obtain ⟨hx, hxs⟩ := hs
    obtain ⟨hxid, hidtail⟩ := hids
    rw [List.pairwise_cons]
    constructor
    · intro y hy
      have hne : x.id ≠ y.id := by
        intro heq
        exact hxid (heq ▸ List.mem_map_of_mem (fun fi => fi.id) hy)
      exact ltF_total x y hne (hx y hy)
    · exact ih hxs hidtail

theorem filter_ltF_middle (l1 l2 : List FeedItem) (a : FeedItem)
    (hs : List.Pairwise (fun x y => ltF x y = true) (l1 ++ a :: l2)) :
    (l1 ++ a :: l2).filter (fun x => ltF a x) = l2 := by
  rw [List.pairwise_append] at hs
  obtain ⟨h1, h2, h12⟩ := hs
  rw [List.pairwise_cons] at h2
  obtain ⟨ha2, _⟩ := h2
  rw [List.filter_append, List.filter_cons]
  have hl1 : l1.filter (fun x => ltF a x) = [] := by
    rw [List.filter_eq_nil]
    intro x hx
    have hxa : ltF x a = true := h12 x hx a (List.mem_cons_self a l2)
    simp [ltF_asymm x a hxa]
  have hl2 : l2.filter (fun x => ltF a x) = l2 := by
    rw [List.filter_eq_self]
    intro x hx
    simp [ha2 x hx]
  rw [hl1, hl2, ltF_irrefl]
  simp

theorem paginateFeed_from (tbl : List FeedItem) (uid : Int) (limit : Nat) (hl : 0 < limit)
    (hs : List.Pairwise (fun x y => ltF x y = true) (userRows tbl uid)) :
    ∀ (fuel : Nat) (k : Nat) (c : Option (Int × Nat)),
      (userRows tbl uid).filter (cpred c) = (userRows tbl uid).drop k →
      (userRows tbl uid).length - k ≤ fuel * limit →
      paginateFeed tbl uid limit fuel c = (userRows tbl uid).drop k := by
  intro fuel
  induction fuel with
  | zero =>
    intro k c hf hlen
    rw [show paginateFeed tbl uid limit 0 c = [] from rfl]
    rw [List.drop_eq_nil_of_le (by omega)]
  | succ fuel ih =>
    intro k c hf hlen
    have hitems : feedPageItems tbl uid c limit = ((userRows tbl uid).drop k).take limit := by
      unfold feedPageItems
      rw [hf]
    by_cases hfull : (feedPageItems tbl uid c limit).length = limit
    · have hne : feedPageItems tbl uid c limit ≠ [] := by
        intro h0
        rw [h0] at hfull
        simp at hfull
        omega
      have hlast : (feedPageItems tbl uid c limit).getLast? =
          some ((feedPageItems tbl uid c limit).getLast hne) :=
        List.getLast?_eq_getLast _ hne
      have hnext : feedNext tbl uid c limit
          = some (((feedPageItems tbl uid c limit).getLast hne).created_at,
                  ((feedPageItems tbl uid c limit).getLast hne).id) := by
        unfold feedNext
        rw [if_pos hfull, hlast]
        rfl
      have hsplit : (userRows tbl uid).drop k
          = feedPageItems tbl uid c limit ++ (userRows tbl uid).drop (k + limit) := by
        rw [hitems]
        conv_lhs => rw [← List.take_append_drop limit ((userRows tbl uid).drop k)]
        rw [List.drop_drop]
      have hdecomp : userRows tbl uid
          = ((userRows tbl uid).take k ++ (feedPageItems tbl uid c limit).dropLast)
            ++ ((feedPageItems tbl uid c limit).getLast hne)
              :: (userRows tbl uid).drop (k + limit) := by
        conv_lhs => rw [← List.take_append_drop k (userRows tbl uid)]
        rw [hsplit]
        conv_lhs => rw [show feedPageItems tbl uid c limit
          = (feedPageItems tbl uid c limit).dropLast
            ++ [(feedPageItems tbl uid c limit).getLast hne]
          from (List.dropLast_append_getLast hne).symm]
        simp [List.append_assoc]
      have hfilter2 : (userRows tbl uid).filter
            (cpred (some (((feedPageItems tbl uid c limit).getLast hne).created_at,
                          ((feedPageItems tbl uid c limit).getLast hne).id)))
          = (userRows tbl uid).drop (k + limit) := by
        have hcp : cpred (some (((feedPageItems tbl uid c limit).getLast hne).created_at,
            ((feedPageItems tbl uid c limit).getLast hne).id))
            = fun x => ltF ((feedPageItems tbl uid c limit).getLast hne) x := rfl
        rw [hcp]
        conv_lhs => rw [hdecomp]
        exact filter_ltF_middle _ _ _ (by rw [← hdecomp]; exact hs)
      have hrec := ih (k + limit)
        (some (((feedPageItems tbl uid c limit).getLast hne).created_at,
               ((feedPageItems tbl uid c limit).getLast hne).id))
        hfilter2 (by rw [Nat.succ_mul] at hlen; omega)
      rw [show paginateFeed tbl uid limit (fuel+1) c
          = (match feedNext tbl uid c limit with
             | none => feedPageItems tbl uid c limit
             | some c' => feedPageItems tbl uid c limit ++ paginateFeed tbl uid limit fuel (some c'))
          from rfl]
      rw [hnext]
      rw [show (match some (((feedPageItems tbl uid c limit).getLast hne).created_at,
              ((feedPageItems tbl uid c limit).getLast hne).id) with
           | none => feedPageItems tbl uid c limit
           | some c' => feedPageItems tbl uid c limit ++ paginateFeed tbl uid limit fuel (some c'))
          = feedPageItems tbl uid c limit
            ++ paginateFeed tbl uid limit fuel
                (some (((feedPageItems tbl uid c limit).getLast hne).created_at,
                       ((feedPageItems tbl uid c limit).getLast hne).id)) from rfl]
      rw [hrec, ← hsplit]
    · have hnext : feedNext tbl uid c limit = none := by
        unfold feedNext
        rw [if_neg hfull]
      rw [show paginateFeed tbl uid limit (fuel+1) c
          = (match feedNext tbl uid c limit with
             | none => feedPageItems tbl uid c limit
             | some c' => feedPageItems tbl uid c limit ++ paginateFeed tbl uid limit fuel (some c'))
          from rfl]
      rw [hnext]
      rw [hitems]
      have hlt : (userRows tbl uid).length - k < limit := by
        rw [hitems] at hfull
        rw [List.length_take, List.length_drop] at hfull
        omega
      rw [List.take_of_length_le (by rw [List.length_drop]; omega)]

/-- C2: paginating the feed with repeated application of `next_cursor`
until it is null yields every FeedItem of the user exactly once, in
`(created_at DESC, id DESC)` order; each page's `next_cursor` is built
from the last returned row iff exactly `limit` rows were returned, and
is null otherwise. -/
theorem c2_feed_pagination (tbl : List FeedItem) (uid : Int) (limit : Nat)
    (hl : 0 < limit)
    (hids : ((tbl.filter (fun fi => fi.user_id = uid)).map (fun fi => fi.id)).Nodup) :
    paginateFeed tbl uid limit (tbl.length + 1) none = userRows tbl uid
    ∧ (userRows tbl uid).Perm (tbl.filter (fun fi => fi.user_id = uid))
    ∧ List.Pairwise (fun x y => ltF x y = true) (userRows tbl uid)
    ∧ ∀ c, ((feedPageItems tbl uid c limit).length = limit →
            feedNext tbl uid c limit
              = (feedPageItems tbl uid c limit).getLast?.map
                  (fun last => (last.created_at, last.id)))
         ∧ ((feedPageItems tbl uid c limit).length ≠ limit →
            feedNext tbl uid c limit = none) := by
  have hperm : (userRows tbl uid).Perm (tbl.filter (fun fi => fi.user_id = uid)) :=
    sortFi_perm _
  have hnodup : ((userRows tbl uid).map (fun fi => fi.id)).Nodup :=
    ((hperm.map (fun fi => fi.id)).nodup_iff).mpr hids
  have hs : List.Pairwise (fun x y => ltF x y = true) (userRows tbl uid) :=
    pairwise_ltF_of_nodup _ (sortFi_sorted _) hnodup
  refine ⟨?_, hperm, hs, ?_⟩
  · have h0 := paginateFeed_from tbl uid limit hl hs (tbl.length + 1) 0 none
      (by simp [cpred]) ?_
    · rw [h0, List.drop_zero]
    · rw [Nat.sub_zero]
      calc (userRows tbl uid).length
          = (tbl.filter (fun fi => fi.user_id = uid)).length := hperm.length_eq
        _ ≤ tbl.length := List.length_filter_le _ _
        _ ≤ tbl.length + 1 := Nat.le_succ _
        _ = (tbl.length + 1) * 1 := (Nat.mul_one _).symm
        _ ≤ (tbl.length + 1) * limit := Nat.mul_le_mul_left _ hl
  · intro c
    constructor
    · intro hfull
      unfold feedNext
      rw [if_pos hfull]
    · intro hfull
      unfold feedNext
      rw [if_neg hfull]

theorem c2_feed_pagination_witness :
    ((0:Nat) < 2
      ∧ ((([⟨3, 5, 12, 150⟩, ⟨1, 5, 10, 100⟩, ⟨2, 6, 11, 200⟩, ⟨4, 5, 13, 150⟩] :
          List FeedItem).filter (fun fi => fi.user_id = 5)).map (fun fi => fi.id)).Nodup)
    ∧ (paginateFeed [⟨3, 5, 12, 150⟩, ⟨1, 5, 10, 100⟩, ⟨2, 6, 11, 200⟩, ⟨4, 5, 13, 150⟩]
          5 2 (([⟨3, 5, 12, 150⟩, ⟨1, 5, 10, 100⟩, ⟨2, 6, 11, 200⟩, ⟨4, 5, 13, 150⟩] :
            List FeedItem).length + 1) none
        = userRows [⟨3, 5, 12, 150⟩, ⟨1, 5, 10, 100⟩, ⟨2, 6, 11, 200⟩, ⟨4, 5, 13, 150⟩] 5
      ∧ (userRows [⟨3, 5, 12, 150⟩, ⟨1, 5, 10, 100⟩, ⟨2, 6, 11, 200⟩, ⟨4, 5, 13, 150⟩] 5).Perm
          (([⟨3, 5, 12, 150⟩, ⟨1, 5, 10, 100⟩, ⟨2, 6, 11, 200⟩, ⟨4, 5, 13, 150⟩] :
            List FeedItem).filter (fun fi => fi.user_id = 5))
      ∧ List.Pairwise (fun x y => ltF x y = true)
          (userRows [⟨3, 5, 12, 150⟩, ⟨1, 5, 10, 100⟩, ⟨2, 6, 11, 200⟩, ⟨4, 5, 13, 150⟩] 5)
      ∧ ∀ c, ((feedPageItems [⟨3, 5, 12, 150⟩, ⟨1, 5, 10, 100⟩, ⟨2, 6, 11, 200⟩,
                ⟨4, 5, 13, 150⟩] 5 c 2).length = 2 →
              feedNext [⟨3, 5, 12, 150⟩, ⟨1, 5, 10, 100⟩, ⟨2, 6, 11, 200⟩, ⟨4, 5, 13, 150⟩] 5 c 2
                = (feedPageItems [⟨3, 5, 12, 150⟩, ⟨1, 5, 10, 100⟩, ⟨2, 6, 11, 200⟩,
                    ⟨4, 5, 13, 150⟩] 5 c 2).getLast?.map
                    (fun last => (last.created_at, last.id)))
           ∧ ((feedPageItems [⟨3, 5, 12, 150⟩, ⟨1, 5, 10, 100⟩, ⟨2, 6, 11, 200⟩,
                ⟨4, 5, 13, 150⟩] 5 c 2).length ≠ 2 →
              feedNext [⟨3, 5, 12, 150⟩, ⟨1, 5, 10, 100⟩, ⟨2, 6, 11, 200⟩,
                ⟨4, 5, 13, 150⟩] 5 c 2 = none)) :=
  ⟨⟨by decide, by decide⟩,
    c2_feed_pagination [⟨3, 5, 12, 150⟩, ⟨1, 5, 10, 100⟩, ⟨2, 6, 11, 200⟩, ⟨4, 5, 13, 150⟩]
      5 2 (by decide) (by decide)⟩

/-! ## Notifications pagination (`NotificationsView.get`) -/

/-- `a` precedes `b` in `ORDER BY id` (ascending) order. -/
def ltN (a b : Notification) : Bool := decide (a.id < b.id)

def insertN (a : Notification) : List Notification → List Notification
  | [] => [a]
  | x :: xs => if ltN a x then a :: x :: xs else x :: insertN a xs

/-- `ORDER BY id` (insertion sort). -/
def sortN : List Notification → List Notification
  | [] => []
  | x :: xs => insertN x (sortN xs)

/-- The rows `filter(user_id=..., id__gt=since).order_by("id")` yields. -/
def notifRows (tbl : List Notification) (uid : Int) (s : Nat) : List Notification :=
  sortN (tbl.filter (fun n => n.user_id = uid ∧ s < n.id))

/-- The page `NotificationsView.get` returns (`[:limit]`). -/
def notifPage (tbl : List Notification) (uid : Int) (s : Nat) (limit : Nat) : List Notification :=
  (notifRows tbl uid s).take limit

/-- `next_since = notifications[-1].id if notifications else since`. -/
def nextSince (tbl : List Notification) (uid : Int) (s : Nat) (limit : Nat) : Nat :=
  match (notifPage tbl uid s limit).getLast? with
  | some last => last.id
  | none => s

/-- Repeatedly call `NotificationsView.get`, feeding `next_since` back
as `since`, until a page comes back empty. -/
def paginateNotifs (tbl : List Notification) (uid : Int) (limit : Nat) : Nat → Nat → List Notification
  | 0, _ => []
  | fuel+1, s =>
    if notifPage tbl uid s limit = [] then []
    else notifPage tbl uid s limit ++ paginateNotifs tbl uid limit fuel (nextSince tbl uid s limit)

theorem ltN_irrefl (a : Notification) : ltN a a = false := by
  simp only [ltN, decide_eq_false_iff_not]
  omega

theorem ltN_asymm (x a : Notification) (h : ltN x a = true) : ltN a x = false := by
  simp only [ltN, decide_eq_true_eq] at h
  simp only [ltN, decide_eq_false_iff_not]
  omega

theorem ltN_total (x y : Notification) (hne : x.id ≠ y.id) (h : ltN y x = false) :
    ltN x y = true := by
  simp only [ltN, decide_eq_false_iff_not] at h
  simp only [ltN, decide_eq_true_eq]
  omega

theorem ltN_trans_neg (x y z : Notification) (h1 : ltN x y = true) (h2 : ltN z y = false) :
    ltN z x = false := by
  simp only [ltN, decide_eq_true_eq] at h1
  simp only [ltN, decide_eq_false_iff_not] at h2 ⊢
  omega

theorem insertN_perm (a : Notification) (l : List Notification) :
    (insertN a l).Perm (a :: l) := by
  induction l with
  | nil => exact List.Perm.refl _
  | cons x xs ih =>
    rw [show insertN a (x :: xs) = if ltN a x then a :: x :: xs else x :: insertN a xs from rfl]
    by_cases h : ltN a x = true
    · rw [if_pos h]
    · rw [if_neg h]
      exact (ih.cons x).trans (List.Perm.swap a x xs)

theorem sortN_perm (l : List Notification) : (sortN l).Perm l := by
  induction l with
  | nil => exact List.Perm.refl _
  | cons x xs ih =>
    exact (insertN_perm x (sortN xs)).trans (ih.cons x)

theorem insertN_sorted (a : Notification) (l : List Notification)
    (hs : List.Pairwise (fun x y => ltN y x = false) l) :
    List.Pairwise (fun x y => ltN y x = false) (insertN a l) := by
  induction l with
  | nil => exact List.pairwise_singleton _ a
  | cons x xs ih =>
    rw [List.pairwise_cons] at hs
    obtain ⟨hx, hxs⟩ := hs
    rw [show insertN a (x :: xs) = if ltN a x then a :: x :: xs else x :: insertN a xs from rfl]
    by_cases h : ltN a x = true
    · rw [if_pos h]
      rw [List.pairwise_cons]
      constructor
      · intro y hy
        rcases List.mem_cons.mp hy with hy | hy
        · subst hy; exact ltN_asymm a y h
        · exact ltN_trans_neg a x y h (hx y hy)
      · rw [List.pairwise_cons]
        exact ⟨hx, hxs⟩
    · rw [if_neg h]
      rw [List.pairwise_cons]
      constructor
      · intro y hy
        rcases List.mem_cons.mp ((insertN_perm a xs).mem_iff.mp hy) with hy | hy
        · subst hy
          exact Bool.eq_false_iff.mpr h
        · exact hx y hy
      · exact ih hxs

theorem sortN_sorted (l : List Notification) :
    List.Pairwise (fun x y => ltN y x = false) (sortN l) := by
  induction l with
  | nil => exact List.Pairwise.nil
  | cons x xs ih => exact insertN_sorted x (sortN xs) ih

theorem pairwise_ltN_of_nodup (l : List Notification)
    (hs : List.Pairwise (fun x y => ltN y x = false) l)
    (hids : (l.map (fun n => n.id)).Nodup) :
    List.Pairwise (fun x y => ltN x y = true) l := by
  induction l with
  | nil => exact List.Pairwise.nil
  | cons x xs ih =>
    rw [List.pairwise_cons] at hs
    rw [List.map_cons, List.nodup_cons] at hids
    obtain ⟨hx, hxs⟩ := hs
    obtain ⟨hxid, hidtail⟩ := hids
    rw [List.pairwise_cons]
    constructor
    · intro y hy
      have hne : x.id ≠ y.id := by
        intro heq
        exact hxid (heq ▸ List.mem_map_of_mem (fun n => n.id) hy)
      exact ltN_total x y hne (hx y hy)
    · exact ih hxs hidtail

theorem filter_ltN_middle (l1 l2 : List Notification) (a : Notification)
    (hs : List.Pairwise (fun x y => ltN x y = true) (l1 ++ a :: l2)) :
    (l1 ++ a :: l2).filter (fun x => ltN a x) = l2 := by
  rw [List.pairwise_append] at hs
  obtain ⟨h1, h2, h12⟩ := hs
  rw [List.pairwise_cons] at h2
  obtain ⟨ha2, _⟩ := h2
  rw [List.filter_append, List.filter_cons]
  have hl1 : l1.filter (fun x => ltN a x) = [] := by
    rw [List.filter_eq_nil]
    intro x hx
    have hxa : ltN x a = true := h12 x hx a (List.mem_cons_self a l2)
    simp [ltN_asymm x a hxa]
  have hl2 : l2.filter (fun x => ltN a x) = l2 := by
    rw [List.filter_eq_self]
    intro x hx
    simp [ha2 x hx]
  rw [hl1, hl2, ltN_irrefl]
  simp

theorem sortedN_perm_eq : ∀ (l l' : List Notification),
    List.Pairwise (fun x y => ltN x y = true) l →
    List.Pairwise (fun x y => ltN x y = true) l' →
    l.Perm l' → l = l' := by
  intro l
  induction l with
  | nil =>
    intro l' _ _ hp
    exact (List.Perm.nil_eq hp)
  | cons x xs ih =>
    intro l' hs hs' hp
    cases l' with
    | nil =>
      have := hp.length_eq
      simp at this
    | cons y ys =>
      by_cases hxy : x = y
      · subst hxy
        rw [List.pairwise_cons] at hs hs'
        rw [ih ys hs.2 hs'.2 hp.cons_inv]
      · exfalso
        have hx' : x ∈ y :: ys := hp.mem_iff.mp (List.mem_cons_self x xs)
        have hy' : y ∈ x :: xs := hp.symm.mem_iff.mp (List.mem_cons_self y ys)
        have hxys : x ∈ ys := by
          rcases List.mem_cons.mp hx' with h | h
          · exact absurd h hxy
          · exact h
        have hyxs : y ∈ xs := by
          rcases List.mem_cons.mp hy' with h | h
          · exact absurd h.symm hxy
          · exact h
        rw [List.pairwise_cons] at hs hs'
        have h1 := hs.1 y hyxs
        have h2 := hs'.1 x hxys
        simp only [ltN, decide_eq_true_eq] at h1 h2
        omega

theorem notifRows_ids_nodup (tbl : List Notification) (uid : Int) (s : Nat)
    (hids : (tbl.map (fun n => n.id)).Nodup) :
    ((notifRows tbl uid s).map (fun n => n.id)).Nodup := by
  refine ((sortN_perm _).map (fun n => n.id)).nodup_iff.mpr ?_
  exact List.Nodup.sublist (List.Sublist.map _ (List.filter_sublist _)) hids

theorem notifRows_sorted (tbl : List Notification) (uid : Int) (s : Nat)
    (hids : (tbl.map (fun n => n.id)).Nodup) :
    List.Pairwise (fun x y => ltN x y = true) (notifRows tbl uid s) :=
  pairwise_ltN_of_nodup _ (sortN_sorted _) (notifRows_ids_nodup tbl uid s hids)

theorem mem_notifRows (tbl : List Notification) (uid : Int) (s : Nat) (n : Notification)
    (h : n ∈ notifRows tbl uid s) : n.user_id = uid ∧ s < n.id := by
  have h2 := (sortN_perm _).mem_iff.mp h
  rw [List.mem_filter] at h2
  simpa using h2.2

theorem notifRows_shift (tbl : List Notification) (uid : Int) (X s : Nat) (hxs : X ≤ s)
    (hids : (tbl.map (fun n => n.id)).Nodup) :
    notifRows tbl uid s = (notifRows tbl uid X).filter (fun n => decide (s < n.id)) := by
  apply sortedN_perm_eq
  · exact notifRows_sorted tbl uid s hids
  · exact List.Pairwise.sublist (List.filter_sublist _) (notifRows_sorted tbl uid X hids)
  · have h1 : (notifRows tbl uid s).Perm (tbl.filter (fun n => n.user_id = uid ∧ s < n.id)) :=
      sortN_perm _
    have h2 : ((notifRows tbl uid X).filter (fun n => decide (s < n.id))).Perm
        ((tbl.filter (fun n => n.user_id = uid ∧ X < n.id)).filter (fun n => decide (s < n.id))) :=
      (sortN_perm _).filter _
    have h3 : (tbl.filter (fun n => n.user_id = uid ∧ X < n.id)).filter
          (fun n => decide (s < n.id))
        = tbl.filter (fun n => n.user_id = uid ∧ s < n.id) := by
      rw [List.filter_filter]
      apply List.filter_congr
      intro n _
      by_cases hs1 : s < n.id
      · have hx1 : X < n.id := by omega
        by_cases hu : n.user_id = uid
        · simp [hs1, hx1, hu]
        · simp [hs1, hu]
      · simp [hs1]
    rw [h3] at h2
    exact h1.trans h2.symm

theorem take_length_take {α : Type} (l : List α) (n : Nat) :
    l.take ((l.take n).length) = l.take n := by
  rw [List.length_take]
  rcases Nat.le_total n l.length with h | h
  · rw [Nat.min_eq_left h]
  · rw [Nat.min_eq_right h, List.take_of_length_le (le_refl _), List.take_of_length_le h]

theorem paginateNotifs_from (tbl : List Notification) (uid : Int) (limit X : Nat)
    (hl : 0 < limit) (hids : (tbl.map (fun n => n.id)).Nodup) :
    ∀ (fuel : Nat) (k : Nat) (s : Nat), X ≤ s →
      notifRows tbl uid s = (notifRows tbl uid X).drop k →
      (notifRows tbl uid X).length - k ≤ fuel →
      paginateNotifs tbl uid limit fuel s = (notifRows tbl uid X).drop k := by
  have hsX : List.Pairwise (fun x y => ltN x y = true) (notifRows tbl uid X) :=
    notifRows_sorted tbl uid X hids
  intro fuel
  induction fuel with
  | zero =>
    intro k s hXs hf hlen
    rw [show paginateNotifs tbl uid limit 0 s = [] from rfl]
    rw [List.drop_eq_nil_of_le (by omega)]
  | succ fuel ih =>
    intro k s hXs hf hlen
    have hpage : notifPage tbl uid s limit = ((notifRows tbl uid X).drop k).take limit := by
      unfold notifPage
      rw [hf]
    by_cases hemp : notifPage tbl uid s limit = []
    · rw [show paginateNotifs tbl uid limit (fuel+1) s
          = (if notifPage tbl uid s limit = [] then []
             else notifPage tbl uid s limit
               ++ paginateNotifs tbl uid limit fuel (nextSince tbl uid s limit)) from rfl]
      rw [if_pos hemp]
      rw [hpage] at hemp
      rcases List.take_eq_nil_iff.mp hemp with h | h
      · exact absurd h (by omega)
      · exact h.symm
    · have hlast? : (notifPage tbl uid s limit).getLast?
          = some ((notifPage tbl uid s limit).getLast hemp) :=
        List.getLast?_eq_getLast _ hemp
      have hnext : nextSince tbl uid s limit = ((notifPage tbl uid s limit).getLast hemp).id := by
        unfold nextSince
        rw [hlast?]
      have hlastmem : ((notifPage tbl uid s limit).getLast hemp) ∈ notifRows tbl uid X := by
        have hsub : ∀ x ∈ notifPage tbl uid s limit, x ∈ notifRows tbl uid X := by
          intro x hx
          rw [hpage] at hx
          exact (List.drop_sublist k _).subset ((List.take_sublist limit _).subset hx)
        exact hsub _ (List.getLast_mem hemp)
      have hXlt : X < ((notifPage tbl uid s limit).getLast hemp).id :=
        (mem_notifRows tbl uid X _ hlastmem).2
      have hptake : ((notifRows tbl uid X).drop k).take ((notifPage tbl uid s limit).length)
          = notifPage tbl uid s limit := by
        rw [hpage]
        exact take_length_take _ _
      have hsplit : (notifRows tbl uid X).drop k
          = notifPage tbl uid s limit
            ++ (notifRows tbl uid X).drop (k + (notifPage tbl uid s limit).length) := by
        conv_lhs => rw [← List.take_append_drop ((notifPage tbl uid s limit).length)
          ((notifRows tbl uid X).drop k)]
        rw [hptake, List.drop_drop]
      have hplpos : 0 < (notifPage tbl uid s limit).length := List.length_pos.mpr hemp
      have hdecomp : notifRows tbl uid X
          = ((notifRows tbl uid X).take k ++ (notifPage tbl uid s limit).dropLast)
            ++ ((notifPage tbl uid s limit).getLast hemp)
              :: (notifRows tbl uid X).drop (k + (notifPage tbl uid s limit).length) := by
        conv_lhs => rw [← List.take_append_drop k (notifRows tbl uid X)]
        rw [hsplit]
        conv_lhs => rw [show notifPage tbl uid s limit
          = (notifPage tbl uid s limit).dropLast
            ++ [(notifPage tbl uid s limit).getLast hemp]
          from (List.dropLast_append_getLast hemp).symm]
        simp [List.append_assoc]
        rw [Nat.sub_add_cancel hplpos]
      have hfilter2 : notifRows tbl uid (((notifPage tbl uid s limit).getLast hemp).id)
          = (notifRows tbl uid X).drop (k + (notifPage tbl uid s limit).length) := by
        rw [notifRows_shift tbl uid X _ (by omega) hids]
        rw [show (fun n => decide ((((notifPage tbl uid s limit).getLast hemp)).id < n.id))
            = (fun n => ltN ((notifPage tbl uid s limit).getLast hemp) n) from rfl]
        conv_lhs => rw [hdecomp]
        exact filter_ltN_middle _ _ _ (by rw [← hdecomp]; exact hsX)
      have hrec := ih (k + (notifPage tbl uid s limit).length)
        (((notifPage tbl uid s limit).getLast hemp).id) (by omega) hfilter2 (by omega)
      rw [show paginateNotifs tbl uid limit (fuel+1) s
          = (if notifPage tbl uid s limit = [] then []
             else notifPage tbl uid s limit
               ++ paginateNotifs tbl uid limit fuel (nextSince tbl uid s limit)) from rfl]
      rw [if_neg hemp, hnext, hrec, ← hsplit]

/-- C8: `NotificationsView.get` returns only rows of the user with
`id > since`, in ascending id order; concatenating pages obtained by
feeding `next_since` back yields every such row exactly once without
duplicates; `next_since` is the last returned id on a non-empty page
and `since` itself on an empty one. -/
theorem c8_notifications_pagination (tbl : List Notification) (uid : Int) (since limit : Nat)
    (hl : 0 < limit) (hids : (tbl.map (fun n => n.id)).Nodup) :
    (∀ n ∈ notifPage tbl uid since limit, n.user_id = uid ∧ since < n.id)
    ∧ paginateNotifs tbl uid limit (tbl.length + 1) since = notifRows tbl uid since
    ∧ (notifRows tbl uid since).Perm (tbl.filter (fun n => n.user_id = uid ∧ since < n.id))
    ∧ List.Pairwise (fun x y => x.id < y.id) (notifRows tbl uid since)
    ∧ (notifPage tbl uid since limit = [] → nextSince tbl uid since limit = since)
    ∧ (∀ h : notifPage tbl uid since limit ≠ [],
        nextSince tbl uid since limit = ((notifPage tbl uid since limit).getLast h).id) := by
  refine ⟨?_, ?_, sortN_perm _, ?_, ?_, ?_⟩
  · intro n hn
    exact mem_notifRows tbl uid since n ((List.take_sublist _ _).subset hn)
  · have h := paginateNotifs_from tbl uid limit since hl hids (tbl.length + 1) 0 since
      (le_refl _) (by rw [List.drop_zero]) ?_
    · rw [List.drop_zero] at h
      exact h
    · rw [Nat.sub_zero]
      calc (notifRows tbl uid since).length
          = (tbl.filter (fun n => n.user_id = uid ∧ since < n.id)).length :=
            (sortN_perm _).length_eq
        _ ≤ tbl.length := List.length_filter_le _ _
        _ ≤ tbl.length + 1 := Nat.le_succ _
  · exact (notifRows_sorted tbl uid since hids).imp
      (fun h => by simpa [ltN] using h)
  · intro h
    unfold nextSince
    rw [h]
    rfl
  · intro h
    unfold nextSince
    rw [List.getLast?_eq_getLast _ h]

theorem c8_notifications_pagination_witness :
    ((0:Nat) < 1
      ∧ (([⟨5, 7, 20, 100⟩, ⟨2, 7, 21, 50⟩, ⟨9, 8, 22, 60⟩, ⟨3, 7, 23, 70⟩] :
          List Notification).map (fun n => n.id)).Nodup)
    ∧ ((∀ n ∈ notifPage [⟨5, 7, 20, 100⟩, ⟨2, 7, 21, 50⟩, ⟨9, 8, 22, 60⟩, ⟨3, 7, 23, 70⟩] 7 2 1,
          n.user_id = 7 ∧ 2 < n.id)
      ∧ paginateNotifs [⟨5, 7, 20, 100⟩, ⟨2, 7, 21, 50⟩, ⟨9, 8, 22, 60⟩, ⟨3, 7, 23, 70⟩] 7 1
          (([⟨5, 7, 20, 100⟩, ⟨2, 7, 21, 50⟩, ⟨9, 8, 22, 60⟩, ⟨3, 7, 23, 70⟩] :
            List Notification).length + 1) 2
          = notifRows [⟨5, 7, 20, 100⟩, ⟨2, 7, 21, 50⟩, ⟨9, 8, 22, 60⟩, ⟨3, 7, 23, 70⟩] 7 2
      ∧ (notifRows [⟨5, 7, 20, 100⟩, ⟨2, 7, 21, 50⟩, ⟨9, 8, 22, 60⟩, ⟨3, 7, 23, 70⟩] 7 2).Perm
          (([⟨5, 7, 20, 100⟩, ⟨2, 7, 21, 50⟩, ⟨9, 8, 22, 60⟩, ⟨3, 7, 23, 70⟩] :
            List Notification).filter (fun n => n.user_id = 7 ∧ 2 < n.id))
      ∧ List.Pairwise (fun x y => x.id < y.id)
          (notifRows [⟨5, 7, 20, 100⟩, ⟨2, 7, 21, 50⟩, ⟨9, 8, 22, 60⟩, ⟨3, 7, 23, 70⟩] 7 2)
      ∧ (notifPage [⟨5, 7, 20, 100⟩, ⟨2, 7, 21, 50⟩, ⟨9, 8, 22, 60⟩, ⟨3, 7, 23, 70⟩] 7 2 1 = [] →
          nextSince [⟨5, 7, 20, 100⟩, ⟨2, 7, 21, 50⟩, ⟨9, 8, 22, 60⟩, ⟨3, 7, 23, 70⟩] 7 2 1 = 2)
      ∧ (∀ h : notifPage [⟨5, 7, 20, 100⟩, ⟨2, 7, 21, 50⟩, ⟨9, 8, 22, 60⟩, ⟨3, 7, 23, 70⟩]
            7 2 1 ≠ [],
          nextSince [⟨5, 7, 20, 100⟩, ⟨2, 7, 21, 50⟩, ⟨9, 8, 22, 60⟩, ⟨3, 7, 23, 70⟩] 7 2 1
            = ((notifPage [⟨5, 7, 20, 100⟩, ⟨2, 7, 21, 50⟩, ⟨9, 8,  22, 60⟩,
                ⟨3, 7, 23, 70⟩] 7 2 1).getLast h).id)) :=
  ⟨⟨by decide, by decide⟩,
    c8_notifications_pagination [⟨5, 7, 20, 100⟩, ⟨2, 7, 21, 50⟩, ⟨9, 8, 22, 60⟩, ⟨3, 7, 23, 70⟩]
      7 2 1 (by decide) (by decide)⟩

/-! ## The analytics registry and the ingest path (`ActivityAnalytics`) -/

/-- The six sliding-window counters of `ActivityAnalytics`:
top keys by `object_id` and by `verb` over 1m/5m/1h windows. -/
structure ActivityAnalytics where
  byObject1m : SW
  byObject5m : SW
  byObject1h : SW
  byVerb1m : SW
  byVerb5m : SW
  byVerb1h : SW
deriving Repr, DecidableEq

namespace ActivityAnalytics

/-- `ActivityAnalytics.__init__` (the state of the module singleton
`analytics` at import time). -/
def init : ActivityAnalytics :=
  ⟨SW.create 60 5, SW.create 300 5, SW.create 3600 5,
   SW.create 60 5, SW.create 300 5, SW.create 3600 5⟩

/-- `ActivityAnalytics.record`: add the event's `object_id` and `verb`
to all six counters. -/
def record (a : ActivityAnalytics) (object_id verb : String) (ts : ℚ) : ActivityAnalytics :=
  ⟨a.byObject1m.add object_id ts 1, a.byObject5m.add object_id ts 1,
   a.byObject1h.add object_id ts 1,
   a.byVerb1m.add verb ts 1, a.byVerb5m.add verb ts 1, a.byVerb1h.add verb ts 1⟩

end ActivityAnalytics

/-- `EventIngestView.post` acting on the full process state: the store
writes are those of `ingest`, and the handler body never references the
module singleton `analytics`, so the registry component comes back
unchanged. -/
def ingestHandler (st : Store) (a : ActivityAnalytics) (req : IngestReq)
    (idemKey : Option String) : (Store × ActivityAnalytics) × Nat × Bool :=
  (((ingest st req idemKey).1, a), (ingest st req idemKey).2.1, (ingest st req idemKey).2.2)

/-- C5: the spec claims every successful ingest updates the analytics
registry synchronously, recording the event's `object_id` and `verb`
into all six sliding-window counters before the handler returns. The
ingest handler in fact returns the registry unchanged for every input,
and on the initial registry this differs from what `record` would
produce: the recorded key would show up in the one-minute object
counter, which stays empty. -/
theorem c5_ingest_does_not_record (st : Store) (a : ActivityAnalytics) (req : IngestReq)
    (idemKey : Option String) :
    ((ingestHandler st a req idemKey).1).2 = a
    ∧ ((ingestHandler st ActivityAnalytics.init req idemKey).1).2
        ≠ ActivityAnalytics.record ActivityAnalytics.init "o1" "like" ((100:Int):ℚ) := by
  refine ⟨rfl, ?_⟩
  intro h
  have h2 : (ActivityAnalytics.init).byObject1m.total
      = (ActivityAnalytics.record ActivityAnalytics.init "o1" "like"
          ((100:Int):ℚ)).byObject1m.total :=
    congrArg (fun x => x.byObject1m.total) h
  have h3 : (ActivityAnalytics.record ActivityAnalytics.init "o1" "like"
        ((100:Int):ℚ)).byObject1m
      = (SW.create 60 5).addI "o1" 100 1 := by
    show (SW.create 60 5).add "o1" ((100:Int):ℚ) 1 = _
    exact SW.add_intCast _ _ _ _ (by decide)
  rw [h3] at h2
  revert h2
  decide

theorem c5_ingest_does_not_record_witness :
    ((ingestHandler ⟨[], [], [], [], 0⟩ ActivityAnalytics.init
        ⟨1, "like", "post", "o1", [2], 100⟩ none).1).2 = ActivityAnalytics.init :=
  (c5_ingest_does_not_record ⟨[], [], [], [], 0⟩ ActivityAnalytics.init
    ⟨1, "like", "post", "o1", [2], 100⟩ none).1
